import Mathlib

/-!
StonerView oscillator network (osc.c)

A shallow embedding of `osc.c`: the list of all oscillators, the creation
functions, the evaluator `osc_get` and the stepper `osc_increment`.

Conventions of the embedding.

* The private linked list rooted at `oscroot` is a `List Osc`; new objects
  go to the end, so a pointer `osc_t *` is the position of the object in the
  list and `NULL` is `none` (`Handle`).
* C `int` values are unbounded integers (signed overflow is undefined in C and
  is not modelled).  The one unsigned computation, in `rand_range`, is taken
  modulo `2 ^ 32`.
* `rand()` is an explicit stream of non-negative values together with the
  number of values already drawn.
* Undefined behaviour that the code can reach (an array index outside the
  array, a division by zero) is reported as an `Err`; loops and the recursion
  of `osc_get` are bounded by a fuel argument and report `Err.fuel` when it
  runs out.
* `NUM_PHASES` and `NUM_ELS` come from `osc.h`, which is not part of the
  sources at hand; they are the two fields of `Config`.
* `malloc` is taken to succeed.
-/

namespace Stonerview

/-- The two constants of `osc.h` used by `osc.c`. -/
structure Config where
  NUM_PHASES : Nat
  NUM_ELS : Nat
  deriving DecidableEq, Repr

/-- Ways in which running the C code can go wrong in the embedding. -/
inductive Err where
  /-- an array is read or written outside its bounds, or through a pointer
  that is not in the list -/
  | bounds
  /-- integer division or remainder by zero -/
  | divzero
  /-- the step or recursion budget is exhausted -/
  | fuel
  deriving DecidableEq, Repr

/-- An `osc_t *`: `none` is `NULL`, `some i` the object at position `i` of the
list. -/
abbrev Handle := Option Nat

/-- The union `osc_t`, one constructor per `otyp_` tag, with the fields that
`osc.c` reads and writes.  The option array of a Multiplex holds the four
entries that `new_osc_multiplex` sets, the ring of a Buffer the `NUM_ELS`
entries that `new_osc_buffer` sets. -/
inductive Osc where
  | Constant (val : Int)
  | Bounce (min max step val : Int)
  | Wrap (min max step val : Int)
  | VeloWrap (min max : Int) (step : Handle) (val : Int)
  | Multiplex (sel : Handle) (val : List Handle)
  | Phaser (phaselen count curphase : Int)
  | RandPhaser (minphaselen maxphaselen count curphaselen curphase : Int)
  | Linear (base diff : Handle)
  | Buffer (val : Handle) (firstel : Int) (el : List Int)
  deriving DecidableEq, Repr

/-- The state of `rand()`: the values it will return and how many were
returned so far. -/
structure Rand where
  seq : Nat → Nat
  pos : Nat

/-- One call of `rand()`; the value is in `[0, RAND_MAX]`. -/
def rand (g : Rand) : Nat × Rand :=
  (g.seq g.pos, { g with pos := g.pos + 1 })

/-- The global state touched by `osc.c`: the list from `oscroot` and the
random generator. -/
structure World where
  oscs : List Osc
  rng : Rand

/-- `rand_range(min, max)`.  `diff` is an `unsigned int`; `rand()` is not
called when `diff <= 1`. -/
def rand_range (min max : Int) (g : Rand) : Int × Rand :=
  let diff : Nat := ((max + 1 - min) % 2 ^ 32).toNat
  if diff ≤ 1 then (min, g)
  else
    let p := rand g
    (min + ((p.1 % diff : Nat) : Int), p.2)

/-- `create_osc` followed by the caller filling in the type data: the object
is put at the end of the list and its pointer returned. -/
def create_osc (w : World) (node : Osc) : Handle × World :=
  (some w.oscs.length, { w with oscs := w.oscs ++ [node] })

/-- `osc_get(osc, el)`.  The first argument bounds the depth of the recursion
through objects; a `NULL` pointer gives 0 at any depth. -/
def osc_get (cfg : Config) : Nat → List Osc → Handle → Int → Except Err Int
  | _, _, none, _ => .ok 0
  | 0, _, some _, _ => .error .fuel
  | fuel + 1, r, some i, el =>
    match r[i]? with
    | none => .error .bounds
    | some (.Constant val) => .ok val
    | some (.Bounce _ _ _ val) => .ok val
    | some (.Wrap _ _ _ val) => .ok val
    | some (.VeloWrap _ _ _ val) => .ok val
    | some (.Linear base diff) =>
      match osc_get cfg fuel r base el with
      | .error e => .error e
      | .ok b =>
        match osc_get cfg fuel r diff el with
        | .error e => .error e
        | .ok d => .ok (b + el * d)
    | some (.Multiplex sel val) =>
      match osc_get cfg fuel r sel el with
      | .error e => .error e
      | .ok s =>
        if cfg.NUM_PHASES = 0 then .error .divzero
        else
          let ix := Int.tmod s cfg.NUM_PHASES
          if ix < 0 then .error .bounds
          else
            match val[ix.toNat]? with
            | none => .error .bounds
            | some h => osc_get cfg fuel r h el
    | some (.Phaser _ _ curphase) => .ok curphase
    | some (.RandPhaser _ _ _ _ curphase) => .ok curphase
    | some (.Buffer _ firstel els) =>
      if cfg.NUM_ELS = 0 then .error .divzero
      else
        let ix := Int.tmod (firstel + el) cfg.NUM_ELS
        if ix < 0 then .error .bounds
        else
          match els[ix.toNat]? with
          | none => .error .bounds
          | some v => .ok v

/-- `new_osc_constant(val)`. -/
def new_osc_constant (val : Int) (w : World) : Handle × World :=
  create_osc w (.Constant val)

/-- The initial value shared by `new_osc_bounce` and `new_osc_wrap`:
`min + step * rand_range(0, diff-1)` with `step` made non-negative and
`diff = (max-min) / step` (C division truncates). -/
def initial_val (min max step : Int) (g : Rand) : Except Err (Int × Rand) :=
  let step := if step < 0 then -step else step
  if step = 0 then .error .divzero
  else
    let diff := Int.tdiv (max - min) step
    let p := rand_range 0 (diff - 1) g
    .ok (min + step * p.1, p.2)

/-- `new_osc_bounce(min, max, step)`. -/
def new_osc_bounce (min max step : Int) (w : World) : Except Err (Handle × World) :=
  match initial_val min max step w.rng with
  | .error e => .error e
  | .ok (v, g) => .ok (create_osc { w with rng := g } (.Bounce min max step v))

/-- `new_osc_wrap(min, max, step)`. -/
def new_osc_wrap (min max step : Int) (w : World) : Except Err (Handle × World) :=
  match initial_val min max step w.rng with
  | .error e => .error e
  | .ok (v, g) => .ok (create_osc { w with rng := g } (.Wrap min max step v))

/-- `new_osc_velowrap(min, max, step)`. -/
def new_osc_velowrap (min max : Int) (step : Handle) (w : World) : Handle × World :=
  let p := rand_range min max w.rng
  create_osc { w with rng := p.2 } (.VeloWrap min max step p.1)

/-- `new_osc_multiplex(sel, ox0, ox1, ox2, ox3)`. -/
def new_osc_multiplex (sel ox0 ox1 ox2 ox3 : Handle) (w : World) : Handle × World :=
  create_osc w (.Multiplex sel [ox0, ox1, ox2, ox3])

/-- `new_osc_phaser(phaselen)`. -/
def new_osc_phaser (cfg : Config) (phaselen : Int) (w : World) : Handle × World :=
  let p := rand_range 0 ((cfg.NUM_PHASES : Int) - 1) w.rng
  create_osc { w with rng := p.2 } (.Phaser phaselen 0 p.1)

/-- `new_osc_randphaser(minphaselen, maxphaselen)`: the phase length is drawn
first, then the phase. -/
def new_osc_randphaser (cfg : Config) (minphaselen maxphaselen : Int) (w : World) :
    Handle × World :=
  let p := rand_range minphaselen maxphaselen w.rng
  let q := rand_range 0 ((cfg.NUM_PHASES : Int) - 1) p.2
  create_osc { w with rng := q.2 } (.RandPhaser minphaselen maxphaselen 0 p.1 q.1)

/-- `new_osc_linear(base, diff)`. -/
def new_osc_linear (base diff : Handle) (w : World) : Handle × World :=
  create_osc w (.Linear base diff)

/-- The initialisation loop of `new_osc_buffer`: `n` slots, each filled with
`osc_get(val, 0)`. -/
def fill_els (cfg : Config) (fuel : Nat) (r : List Osc) (val : Handle) :
    Nat → Except Err (List Int)
  | 0 => .ok []
  | n + 1 =>
    match osc_get cfg fuel r val 0 with
    | .error e => .error e
    | .ok v =>
      match fill_els cfg fuel r val n with
      | .error e => .error e
      | .ok els => .ok (v :: els)

/-- `new_osc_buffer(val)`.  `val` was returned by an earlier call, so it is
sampled in the list as it stood before the new object was appended. -/
def new_osc_buffer (cfg : Config) (fuel : Nat) (val : Handle) (w : World) :
    Except Err (Handle × World) :=
  match fill_els cfg fuel w.oscs val cfg.NUM_ELS with
  | .error e => .error e
  | .ok els => .ok (create_osc w (.Buffer val ((cfg.NUM_ELS : Int) - 1) els))

/-- The Bounce case of `osc_increment`; returns the new `(step, val)`. -/
def bounce_step (min max step val : Int) : Int × Int :=
  let val := val + step
  let p : Int × Int :=
    if val < min ∧ step < 0 then (-step, min + (min - val)) else (step, val)
  if p.2 > max ∧ p.1 > 0 then (-p.1, max + (max - p.2)) else p

/-- The Wrap case of `osc_increment`; returns the new `val`. -/
def wrap_step (min max step val : Int) : Int :=
  let val := val + step
  let val := if val < min ∧ step < 0 then val + (max - min) else val
  if val > max ∧ step > 0 then val - (max - min) else val

/-- The loop `while (val < min) val += diff;` of the VeloWrap case. -/
def velowrap_up (min diff : Int) : Nat → Int → Except Err Int
  | 0, _ => .error .fuel
  | fuel + 1, val => if val < min then velowrap_up min diff fuel (val + diff) else .ok val

/-- The loop `while (val > max) val -= diff;` of the VeloWrap case. -/
def velowrap_down (max diff : Int) : Nat → Int → Except Err Int
  | 0, _ => .error .fuel
  | fuel + 1, val => if val > max then velowrap_down max diff fuel (val - diff) else .ok val

/-- The VeloWrap case of `osc_increment` once the velocity `v` is sampled;
returns the new `val`. -/
def velowrap_step (fuel : Nat) (min max val v : Int) : Except Err Int :=
  let diff := max - min
  match velowrap_up min diff fuel (val + v) with
  | .error e => .error e
  | .ok val => velowrap_down max diff fuel val

/-- The counter and phase update shared by the Phaser and RandPhaser cases:
returns `(wrapped, count, curphase)` for the length `len` in force. -/
def phase_step (cfg : Config) (len count curphase : Int) : Bool × Int × Int :=
  let count := count + 1
  if count ≥ len then
    let curphase := curphase + 1
    (true, 0, if curphase ≥ (cfg.NUM_PHASES : Int) then 0 else curphase)
  else (false, count, curphase)

/-- The body of the `switch` of `osc_increment` for one object; `r` is the
list as it stands when the object is reached, and `fuel` bounds both the
recursion of `osc_get` and the number of tests of each `while` loop. -/
def osc_step (cfg : Config) (fuel : Nat) (r : List Osc) (g : Rand) :
    Osc → Except Err (Osc × Rand)
  | .Bounce min max step val =>
    let p := bounce_step min max step val
    .ok (.Bounce min max p.1 p.2, g)
  | .Wrap min max step val => .ok (.Wrap min max step (wrap_step min max step val), g)
  | .VeloWrap min max step val =>
    match osc_get cfg fuel r step 0 with
    | .error e => .error e
    | .ok v =>
      match velowrap_step fuel min max val v with
      | .error e => .error e
      | .ok val => .ok (.VeloWrap min max step val, g)
  | .Phaser phaselen count curphase =>
    let p := phase_step cfg phaselen count curphase
    .ok (.Phaser phaselen p.2.1 p.2.2, g)
  | .RandPhaser minphaselen maxphaselen count curphaselen curphase =>
    let p := phase_step cfg curphaselen count curphase
    if p.1 then
      let q := rand_range minphaselen maxphaselen g
      .ok (.RandPhaser minphaselen maxphaselen p.2.1 q.1 p.2.2, q.2)
    else .ok (.RandPhaser minphaselen maxphaselen p.2.1 curphaselen p.2.2, g)
  | .Buffer val firstel els =>
    let firstel := firstel - 1
    let firstel := if firstel < 0 then firstel + (cfg.NUM_ELS : Int) else firstel
    match osc_get cfg fuel r val 0 with
    | .error e => .error e
    | .ok v =>
      if firstel < 0 ∨ (els.length : Int) ≤ firstel then .error .bounds
      else .ok (.Buffer val firstel (els.set firstel.toNat v), g)
  | x => .ok (x, g)

/-- The `for` loop of `osc_increment`: `done` are the objects already
stepped, the second list those still to be visited. -/
def osc_loop (cfg : Config) (fuel : Nat) :
    List Osc → List Osc → Rand → Except Err (List Osc × Rand)
  | done, [], g => .ok (done, g)
  | done, x :: rest, g =>
    match osc_step cfg fuel (done ++ x :: rest) g x with
    | .error e => .error e
    | .ok (x', g') => osc_loop cfg fuel (done ++ [x']) rest g'

/-- `osc_increment()`. -/
def osc_increment (cfg : Config) (fuel : Nat) (w : World) : Except Err World :=
  match osc_loop cfg fuel [] w.oscs w.rng with
  | .error e => .error e
  | .ok (r, g) => .ok ⟨r, g⟩

/-- The state after `t` calls of `osc_increment()`. -/
def osc_run (cfg : Config) (fuel : Nat) : Nat → World → Except Err World
  | 0, w => .ok w
  | t + 1, w =>
    match osc_run cfg fuel t w with
    | .error e => .error e
    | .ok w' => osc_increment cfg fuel w'

/-- The pointer fields of an object. -/
def Osc.refs : Osc → List Handle
  | .VeloWrap _ _ step _ => [step]
  | .Multiplex sel val => sel :: val
  | .Linear base diff => [base, diff]
  | .Buffer val _ _ => [val]
  | _ => []

/-- A pointer is `NULL` or points at a position before `i`. -/
def Handle.below (i : Nat) : Handle → Bool
  | none => true
  | some j => decide (j < i)

/-- Every pointer field of each object of the list, the first of which sits
at position `i`, points at an earlier position. -/
def backRefsFrom : Nat → List Osc → Bool
  | _, [] => true
  | i, x :: xs => x.refs.all (Handle.below i) && backRefsFrom (i + 1) xs

/-- Every pointer stored in the list points at an object created earlier. -/
def BackRefs (r : List Osc) : Prop := backRefsFrom 0 r = true

/-- The empty list and a generator that returns `seq 0, seq 1, ...`. -/
def World.init (seq : Nat → Nat) : World := ⟨[], ⟨seq, 0⟩⟩

/-- The state used in the concrete scenarios: a given list and a generator
that always returns 0. -/
def world_of (r : List Osc) : World := ⟨r, ⟨fun _ => 0, 0⟩⟩

/-- One call made by the client of `osc.c`: a creation function with its
arguments, or `osc_increment()`. -/
inductive Op where
  | constant (val : Int)
  | bounce (min max step : Int)
  | wrap (min max step : Int)
  | velowrap (min max : Int) (step : Handle)
  | multiplex (sel ox0 ox1 ox2 ox3 : Handle)
  | phaser (phaselen : Int)
  | randphaser (minphaselen maxphaselen : Int)
  | linear (base diff : Handle)
  | buffer (val : Handle)
  | increment
  deriving DecidableEq, Repr

/-- The pointer arguments of a call. -/
def Op.refs : Op → List Handle
  | .velowrap _ _ step => [step]
  | .multiplex sel ox0 ox1 ox2 ox3 => [sel, ox0, ox1, ox2, ox3]
  | .linear base diff => [base, diff]
  | .buffer val => [val]
  | _ => []

/-- Whether the call is a creation function. -/
def Op.creates : Op → Bool
  | .increment => false
  | _ => true

/-- The effect of one call on the global state. -/
def Op.run (cfg : Config) (fuel : Nat) : Op → World → Except Err World
  | .constant val, w => .ok (new_osc_constant val w).2
  | .bounce min max step, w =>
    match new_osc_bounce min max step w with
    | .error e => .error e
    | .ok p => .ok p.2
  | .wrap min max step, w =>
    match new_osc_wrap min max step w with
    | .error e => .error e
    | .ok p => .ok p.2
  | .velowrap min max step, w => .ok (new_osc_velowrap min max step w).2
  | .multiplex sel ox0 ox1 ox2 ox3, w => .ok (new_osc_multiplex sel ox0 ox1 ox2 ox3 w).2
  | .phaser phaselen, w => .ok (new_osc_phaser cfg phaselen w).2
  | .randphaser minphaselen maxphaselen, w =>
    .ok (new_osc_randphaser cfg minphaselen maxphaselen w).2
  | .linear base diff, w => .ok (new_osc_linear base diff w).2
  | .buffer val, w =>
    match new_osc_buffer cfg fuel val w with
    | .error e => .error e
    | .ok p => .ok p.2
  | .increment, w => osc_increment cfg fuel w

/-- A sequence of calls, run in order. -/
def run_ops (cfg : Config) (fuel : Nat) : List Op → World → Except Err World
  | [], w => .ok w
  | op :: ops, w =>
    match op.run cfg fuel w with
    | .error e => .error e
    | .ok w' => run_ops cfg fuel ops w'

/-- Every pointer argument of every call is `NULL` or was returned by an
earlier creation call, `n` objects having been created before the sequence
starts. -/
def opsValid : Nat → List Op → Bool
  | _, [] => true
  | n, op :: ops =>
    op.refs.all (Handle.below n) && opsValid (if op.creates then n + 1 else n) ops

/-- The object `x'` has the tag of `x` and agrees with it on every field that
`osc_increment` never assigns: all fields of a Constant, Multiplex or
Linear; `min` and `max` of a Bounce; `min`, `max` and `step` of a Wrap;
`min`, `max` and the pointer of a VeloWrap; `phaselen` of a Phaser;
`minphaselen` and `maxphaselen` of a RandPhaser; the pointer and the ring
size of a Buffer. -/
def sameFrame (x x' : Osc) : Prop :=
  match x with
  | .Constant v => x' = .Constant v
  | .Bounce min max _ _ => ∃ step' val', x' = .Bounce min max step' val'
  | .Wrap min max step _ => ∃ val', x' = .Wrap min max step val'
  | .VeloWrap min max step _ => ∃ val', x' = .VeloWrap min max step val'
  | .Multiplex sel val => x' = .Multiplex sel val
  | .Phaser phaselen _ _ => ∃ count' curphase', x' = .Phaser phaselen count' curphase'
  | .RandPhaser a b _ _ _ =>
    ∃ count' curphaselen' curphase', x' = .RandPhaser a b count' curphaselen' curphase'
  | .Linear base diff => x' = .Linear base diff
  | .Buffer val _ el => ∃ firstel' el', x' = .Buffer val firstel' el' ∧ el'.length = el.length

/-- The first `if` of the Bounce case of `osc_increment` is taken. -/
def bounce_hits_min (min step val : Int) : Prop :=
  val + step < min ∧ step < 0

/-- The second `if` of the Bounce case of `osc_increment` is taken; it is
tested on the value and step left by the first. -/
def bounce_hits_max (min max step val : Int) : Prop :=
  let p : Int × Int :=
    if val + step < min ∧ step < 0 then (-step, min + (min - (val + step)))
    else (step, val + step)
  p.2 > max ∧ p.1 > 0

/-- What the loop of `osc_increment` leaves behind: the objects already
stepped are kept, the length is unchanged, and the object at each position is the result
of `osc_step` run in the list whose earlier positions are already stepped. -/
theorem osc_loop_spec (cfg : Config) (fuel : Nat) :
    ∀ (rest done : List Osc) (g : Rand) (r' : List Osc) (g' : Rand),
      osc_loop cfg fuel done rest g = .ok (r', g') →
      r'.length = done.length + rest.length ∧
      r'.take done.length = done ∧
      ∀ j x, rest[j]? = some x →
        ∃ gj gj' x', osc_step cfg fuel (r'.take (done.length + j) ++ rest.drop j) gj x
            = .ok (x', gj') ∧ r'[done.length + j]? = some x' := by
  intro rest
  induction rest with
  | nil =>
    intro done g r' g' h
    simp only [osc_loop, Except.ok.injEq, Prod.mk.injEq] at h
    obtain ⟨rfl, rfl⟩ := h
    simp
  | cons x rest ih =>
    intro done g r' g' h
    simp only [osc_loop] at h
    cases hs : osc_step cfg fuel (done ++ x :: rest) g x with
    | error e => rw [hs] at h; simp at h
    | ok p =>
      obtain ⟨x', g1⟩ := p
      rw [hs] at h
      simp only at h
      obtain ⟨hlen, htake, hpt⟩ := ih (done ++ [x']) g1 r' g' h
      have hlen' : r'.length = done.length + (rest.length + 1) := by
        simp only [List.length_append, List.length_singleton] at hlen; omega
      have htake' : r'.take done.length = done := by
        have := congrArg (List.take done.length) htake
        simpa [List.take_take] using this
      have hx' : r'[done.length]? = some x' := by
        have h1 : (r'.take (done ++ [x']).length)[done.length]? = some x' := by
          rw [htake]; simp
        rw [List.getElem?_take] at h1
        simpa using h1
      refine ⟨by simpa using hlen', htake', ?_⟩
      intro j y hy
      cases j with
      | zero =>
        simp only [List.getElem?_cons_zero, Option.some.injEq] at hy
        subst hy
        exact ⟨g, g1, x', by simpa [htake'] using hs, by simpa using hx'⟩
      | succ j =>
        simp only [List.getElem?_cons_succ] at hy
        obtain ⟨gj, gj', y', h1, h2⟩ := hpt j y hy
        refine ⟨gj, gj', y', ?_, ?_⟩
        · have e : (done ++ [x']).length + j = done.length + (j + 1) := by
            simp only [List.length_append, List.length_singleton]; omega
          rw [e] at h1
          simpa using h1
        · have e : (done ++ [x']).length + j = done.length + (j + 1) := by
            simp only [List.length_append, List.length_singleton]; omega
          rw [e] at h2
          exact h2

/-- One call of `osc_increment`, position by position. -/
theorem osc_increment_spec (cfg : Config) (fuel : Nat) (w w' : World)
    (h : osc_increment cfg fuel w = .ok w') :
    w'.oscs.length = w.oscs.length ∧
    ∀ j x, w.oscs[j]? = some x →
      ∃ gj gj' x', osc_step cfg fuel (w'.oscs.take j ++ w.oscs.drop j) gj x = .ok (x', gj') ∧
        w'.oscs[j]? = some x' := by
  unfold osc_increment at h
  cases hl : osc_loop cfg fuel [] w.oscs w.rng with
  | error e => rw [hl] at h; simp at h
  | ok p =>
    obtain ⟨r, g⟩ := p
    rw [hl] at h
    simp only [Except.ok.injEq] at h
    subst h
    obtain ⟨hlen, -, hpt⟩ := osc_loop_spec cfg fuel w.oscs [] w.rng r g hl
    refine ⟨by simpa using hlen, ?_⟩
    intro j x hx
    simpa using hpt j x hx

/-- A property of single objects, indexed by the number of ticks, that
`osc_step` carries from one tick to the next holds after any run. -/
theorem osc_run_invariant (cfg : Config) (fuel : Nat) (Q : Nat → Osc → Prop)
    (hQ : ∀ k r g x x' g', Q k x → osc_step cfg fuel r g x = .ok (x', g') → Q (k + 1) x')
    (w : World) (i : Nat) (x : Osc) (hx : w.oscs[i]? = some x) (h0 : Q 0 x) :
    ∀ k w', osc_run cfg fuel k w = .ok w' → ∃ x', w'.oscs[i]? = some x' ∧ Q k x' := by
  intro k
  induction k with
  | zero =>
    intro w' h
    simp only [osc_run, Except.ok.injEq] at h
    subst h
    exact ⟨x, hx, h0⟩
  | succ k ih =>
    intro w' h
    simp only [osc_run] at h
    cases hr : osc_run cfg fuel k w with
    | error e => rw [hr] at h; simp at h
    | ok w1 =>
      rw [hr] at h
      simp only at h
      obtain ⟨x1, hx1, hq1⟩ := ih w1 hr
      obtain ⟨-, hpt⟩ := osc_increment_spec cfg fuel w1 w' h
      obtain ⟨gj, gj', x', hs, hx'⟩ := hpt i x1 hx1
      exact ⟨x', hx', hQ k _ gj x1 x' gj' hq1 hs⟩

/-! ## Bounce and Wrap -/

theorem osc_step_bounce (cfg : Config) (fuel : Nat) (r : List Osc) (g g' : Rand)
    (min max step val : Int) (x' : Osc)
    (h : osc_step cfg fuel r g (.Bounce min max step val) = .ok (x', g')) :
    x' = .Bounce min max (bounce_step min max step val).1 (bounce_step min max step val).2 := by
  simp only [osc_step, Except.ok.injEq, Prod.mk.injEq] at h
  exact h.1.symm

theorem osc_step_wrap (cfg : Config) (fuel : Nat) (r : List Osc) (g g' : Rand)
    (min max step val : Int) (x' : Osc)
    (h : osc_step cfg fuel r g (.Wrap min max step val) = .ok (x', g')) :
    x' = .Wrap min max step (wrap_step min max step val) := by
  simp only [osc_step, Except.ok.injEq, Prod.mk.injEq] at h
  exact h.1.symm

theorem rand_range_phase (P : Nat) (hP : 1 ≤ P) (g : Rand) :
    0 ≤ (rand_range 0 ((P : Int) - 1) g).1 ∧ (rand_range 0 ((P : Int) - 1) g).1 < (P : Int) := by
  unfold rand_range
  dsimp only
  split_ifs with h
  · dsimp only; omega
  · dsimp only
    have hpos : 0 < (((P : Int) - 1 + 1 - 0) % 2 ^ 32).toNat := by omega
    have hlt := Nat.mod_lt (rand g).1 hpos
    have hle : (((P : Int) - 1 + 1 - 0) % 2 ^ 32).toNat ≤ P := by omega
    omega

theorem phase_step_range (cfg : Config) (len count curphase : Int)
    (h : 0 ≤ curphase ∧ curphase < (cfg.NUM_PHASES : Int)) :
    0 ≤ (phase_step cfg len count curphase).2.2 ∧
    (phase_step cfg len count curphase).2.2 < (cfg.NUM_PHASES : Int) := by
  unfold phase_step
  dsimp only
  split_ifs <;> dsimp only <;> omega

theorem succ_ediv_emod (k L : Int) (hL : 0 < L) :
    (k % L + 1 = L → (k + 1) % L = 0 ∧ (k + 1) / L = k / L + 1) ∧
    (k % L + 1 ≠ L → (k + 1) % L = k % L + 1 ∧ (k + 1) / L = k / L) := by
  have h1 := Int.ediv_add_emod k L
  have h2 := Int.emod_nonneg k (ne_of_gt hL)
  have h3 := Int.emod_lt_of_pos k hL
  constructor
  · intro h
    have := (Int.ediv_emod_unique (a := k + 1) (q := k / L + 1) (r := 0) hL).mpr
      ⟨by rw [mul_add]; linarith, le_refl 0, hL⟩
    exact ⟨this.2, this.1⟩
  · intro h
    have := (Int.ediv_emod_unique (a := k + 1) (q := k / L) (r := k % L + 1) hL).mpr
      ⟨by linarith, by omega, by omega⟩
    exact ⟨this.2, this.1⟩

theorem osc_step_phaser (cfg : Config) (fuel : Nat) (r : List Osc) (g g' : Rand)
    (L c ph : Int) (x' : Osc)
    (h : osc_step cfg fuel r g (.Phaser L c ph) = .ok (x', g')) :
    x' = .Phaser L (phase_step cfg L c ph).2.1 (phase_step cfg L c ph).2.2 := by
  simp only [osc_step, Except.ok.injEq, Prod.mk.injEq] at h
  exact h.1.symm

theorem osc_step_randphaser (cfg : Config) (fuel : Nat) (r : List Osc) (g g' : Rand)
    (a b c len ph : Int) (x' : Osc)
    (h : osc_step cfg fuel r g (.RandPhaser a b c len ph) = .ok (x', g')) :
    ∃ len', x' = .RandPhaser a b (phase_step cfg len c ph).2.1 len'
      (phase_step cfg len c ph).2.2 := by
  simp only [osc_step] at h
  split_ifs at h
  · simp only [Except.ok.injEq, Prod.mk.injEq] at h
    exact ⟨_, h.1.symm⟩
  · simp only [Except.ok.injEq, Prod.mk.injEq] at h
    exact ⟨_, h.1.symm⟩

/-- The closed form of the Phaser state is carried by one step. -/
theorem phase_step_closed (cfg : Config) (L p0 : Int) (k : Nat) (hL : 1 ≤ L)
    (hP : 1 ≤ cfg.NUM_PHASES) :
    phase_step cfg L ((k : Int) % L) ((p0 + (k : Int) / L) % (cfg.NUM_PHASES : Int))
      = (decide (((k + 1 : Nat) : Int) % L = 0), ((k + 1 : Nat) : Int) % L,
          (p0 + ((k + 1 : Nat) : Int) / L) % (cfg.NUM_PHASES : Int)) := by
  have hL0 : 0 < L := by omega
  have hP0 : (0 : Int) < (cfg.NUM_PHASES : Int) := by omega
  obtain ⟨hA, hB⟩ := succ_ediv_emod (k : Int) L hL0
  obtain ⟨hC, hD⟩ := succ_ediv_emod (p0 + (k : Int) / L) (cfg.NUM_PHASES : Int) hP0
  have h2 := Int.emod_nonneg (k : Int) (ne_of_gt hL0)
  have h3 := Int.emod_lt_of_pos (k : Int) hL0
  have h4 := Int.emod_nonneg (p0 + (k : Int) / L) (ne_of_gt hP0)
  have h5 := Int.emod_lt_of_pos (p0 + (k : Int) / L) hP0
  unfold phase_step
  dsimp only
  push_cast
  by_cases hw : (k : Int) % L + 1 = L
  · obtain ⟨e1, e2⟩ := hA hw
    rw [if_pos (by omega), e1, e2]
    have e3 : p0 + ((k : Int) / L + 1) = p0 + (k : Int) / L + 1 := by ring
    rw [e3]
    by_cases hq : (p0 + (k : Int) / L) % (cfg.NUM_PHASES : Int) + 1 = (cfg.NUM_PHASES : Int)
    · rw [if_pos (by omega), (hC hq).1]; simp
    · rw [if_neg (by omega), (hD hq).1]; simp
  · obtain ⟨e1, e2⟩ := hB hw
    rw [if_neg (by omega), e1, e2]
    have : ¬ ((k : Int) % L + 1 = 0) := by omega
    simp [this]

/-- C7: with `P = NUM_PHASES >= 1` and `L >= 1`, `new_osc_phaser(L)` appends
`Phaser L 0 p0` with `0 <= p0 < P`; after `k` calls of `osc_increment` the
counter of such an object is `k mod L` (so at most `L - 1`) and its phase is
`(p0 + k / L) mod P`; in the next tick the phase becomes `(phase + 1) mod P`
when the counter returns to 0 and is unchanged otherwise (for `P >= 2` it
changes exactly on those ticks). -/
theorem phaser_periodicity (cfg : Config) (hP : 1 ≤ cfg.NUM_PHASES) (fuel : Nat)
    (L : Int) (hL : 1 ≤ L) (w0 : World) :
    ∃ p0 : Int, 0 ≤ p0 ∧ p0 < (cfg.NUM_PHASES : Int) ∧
      (new_osc_phaser cfg L w0).1 = some w0.oscs.length ∧
      (new_osc_phaser cfg L w0).2.oscs = w0.oscs ++ [.Phaser L 0 p0] ∧
      ∀ (w : World) (i : Nat), w.oscs[i]? = some (.Phaser L 0 p0) →
        ∀ (k : Nat) (wk : World), osc_run cfg fuel k w = .ok wk →
          wk.oscs[i]? = some (.Phaser L ((k : Int) % L)
            ((p0 + (k : Int) / L) % (cfg.NUM_PHASES : Int))) ∧
          0 ≤ (k : Int) % L ∧ (k : Int) % L ≤ L - 1 ∧
          ∀ wk', osc_increment cfg fuel wk = .ok wk' →
            ∃ c' ph', wk'.oscs[i]? = some (.Phaser L c' ph') ∧
              c' = ((k + 1 : Nat) : Int) % L ∧
              (c' = 0 → ph' = ((p0 + (k : Int) / L) % (cfg.NUM_PHASES : Int) + 1)
                % (cfg.NUM_PHASES : Int)) ∧
              (c' ≠ 0 → ph' = (p0 + (k : Int) / L) % (cfg.NUM_PHASES : Int)) ∧
              (2 ≤ cfg.NUM_PHASES →
                (ph' ≠ (p0 + (k : Int) / L) % (cfg.NUM_PHASES : Int) ↔ c' = 0)) := by
  have hL0 : 0 < L := by omega
  have hP0 : (0 : Int) < (cfg.NUM_PHASES : Int) := by omega
  have hrange := rand_range_phase cfg.NUM_PHASES hP w0.rng
  refine ⟨(rand_range 0 ((cfg.NUM_PHASES : Int) - 1) w0.rng).1, hrange.1, hrange.2, rfl, rfl, ?_⟩
  revert hrange
  generalize (rand_range 0 ((cfg.NUM_PHASES : Int) - 1) w0.rng).1 = p0
  intro hrange w i hx
  have closed : ∀ (k : Nat) (wk : World), osc_run cfg fuel k w = .ok wk →
      wk.oscs[i]? = some (.Phaser L ((k : Int) % L)
        ((p0 + (k : Int) / L) % (cfg.NUM_PHASES : Int))) := by
    intro k wk hr
    obtain ⟨x', hx', hq⟩ := osc_run_invariant cfg fuel
      (fun k x => x = .Phaser L ((k : Int) % L) ((p0 + (k : Int) / L) % (cfg.NUM_PHASES : Int)))
      (by
        rintro k r g x x' g' rfl hstep
        have := osc_step_phaser cfg fuel r g g' _ _ _ _ hstep
        rw [phase_step_closed cfg L p0 k hL hP] at this
        exact this)
      w i _ hx (by simp [Int.emod_eq_of_lt hrange.1 hrange.2]) k wk hr
    rw [hx', hq]
  intro k wk hr
  refine ⟨closed k wk hr, Int.emod_nonneg _ (ne_of_gt hL0), ?_, ?_⟩
  · have := Int.emod_lt_of_pos (k : Int) hL0
    omega
  · intro wk' hinc
    have hr' : osc_run cfg fuel (k + 1) w = .ok wk' := by
      simp only [osc_run, hr]
      exact hinc
    have hc := closed (k + 1) wk' hr'
    refine ⟨_, _, hc, rfl, ?_, ?_, ?_⟩
    · intro h0
      have hk : ¬ ((k : Int) % L + 1 ≠ L) := by
        intro hne
        have := ((succ_ediv_emod (k : Int) L hL0).2 hne).1
        have h2 := Int.emod_nonneg (k : Int) (ne_of_gt hL0)
        push_cast at h0
        omega
      have e := ((succ_ediv_emod (k : Int) L hL0).1 (not_not.mp hk)).2
      push_cast
      rw [e, Int.emod_add_emod]
      congr 1
      ring
    · intro h0
      have hk : (k : Int) % L + 1 ≠ L := by
        intro he
        have := ((succ_ediv_emod (k : Int) L hL0).1 he).1
        push_cast at h0
        exact h0 this
      have e := ((succ_ediv_emod (k : Int) L hL0).2 hk).2
      push_cast
      rw [e]
    · intro hP2
      have h4 := Int.emod_nonneg (p0 + (k : Int) / L) (ne_of_gt hP0)
      have h5 := Int.emod_lt_of_pos (p0 + (k : Int) / L) hP0
      obtain ⟨hA, hB⟩ := succ_ediv_emod (k : Int) L hL0
      obtain ⟨hC, hD⟩ := succ_ediv_emod (p0 + (k : Int) / L) (cfg.NUM_PHASES : Int) hP0
      have h2 := Int.emod_nonneg (k : Int) (ne_of_gt hL0)
      push_cast
      by_cases hw : (k : Int) % L + 1 = L
      · obtain ⟨e1, e2⟩ := hA hw
        rw [e1, e2]
        have e3 : p0 + ((k : Int) / L + 1) = p0 + (k : Int) / L + 1 := by ring
        rw [e3]
        by_cases hq : (p0 + (k : Int) / L) % (cfg.NUM_PHASES : Int) + 1 = (cfg.NUM_PHASES : Int)
        · rw [(hC hq).1]
          constructor
          · intro _; rfl
          · intro _; omega
        · rw [(hD hq).1]
          constructor
          · intro _; rfl
          · intro _; omega
      · obtain ⟨e1, e2⟩ := hB hw
        rw [e1, e2]
        constructor
        · intro h; exact absurd rfl h
        · intro h; omega

/-- C7 on `new_osc_phaser(3)` with `NUM_PHASES = 4` and `rand()` giving 6:
the phaser starts in phase 2 and after 7 ticks has counter 1 and phase 0. -/
theorem phaser_periodicity_witness :
    (new_osc_phaser ⟨4, 4⟩ 3 ⟨[], ⟨fun _ => 6, 0⟩⟩).2.oscs = [.Phaser 3 0 2] ∧
    osc_run ⟨4, 4⟩ 1 7 (new_osc_phaser ⟨4, 4⟩ 3 ⟨[], ⟨fun _ => 6, 0⟩⟩).2
      = .ok ⟨[.Phaser 3 1 0], ⟨fun _ => 6, 1⟩⟩ ∧
    ∃ p0 : Int, 0 ≤ p0 ∧ p0 < ((4 : Nat) : Int) ∧
      (new_osc_phaser ⟨4, 4⟩ 3 ⟨[], ⟨fun _ => 6, 0⟩⟩).2.oscs = [] ++ [.Phaser 3 0 p0] :=
  ⟨rfl, rfl,
    let ⟨p0, h1, h2, _, h4, _⟩ :=
      phaser_periodicity ⟨4, 4⟩ (by decide) 1 3 (by decide) ⟨[], ⟨fun _ => 6, 0⟩⟩
    ⟨p0, h1, h2, h4⟩⟩

/-- C8: with `P = NUM_PHASES >= 1`, `new_osc_phaser` and `new_osc_randphaser`
create an object whose `curphase` is in `[0, P)` for every state of the
random generator and all phase-length arguments; `osc_increment` keeps the
`curphase` of every Phaser and RandPhaser in `[0, P)` for any number of
calls, and `osc_get` of such an object returns that `curphase`. -/
theorem phase_range_invariant (cfg : Config) (hP : 1 ≤ cfg.NUM_PHASES) :
    (∀ (L : Int) (w0 : World), ∃ p0 : Int, 0 ≤ p0 ∧ p0 < (cfg.NUM_PHASES : Int) ∧
      (new_osc_phaser cfg L w0).1 = some w0.oscs.length ∧
      (new_osc_phaser cfg L w0).2.oscs = w0.oscs ++ [.Phaser L 0 p0]) ∧
    (∀ (a b : Int) (w0 : World), ∃ len p0 : Int, 0 ≤ p0 ∧ p0 < (cfg.NUM_PHASES : Int) ∧
      (new_osc_randphaser cfg a b w0).1 = some w0.oscs.length ∧
      (new_osc_randphaser cfg a b w0).2.oscs = w0.oscs ++ [.RandPhaser a b 0 len p0]) ∧
    (∀ (fuel : Nat) (w : World) (i : Nat) (L c ph : Int),
      w.oscs[i]? = some (.Phaser L c ph) → 0 ≤ ph → ph < (cfg.NUM_PHASES : Int) →
      ∀ (k : Nat) (wk : World), osc_run cfg fuel k w = .ok wk →
        ∃ c' ph', wk.oscs[i]? = some (.Phaser L c' ph') ∧
          0 ≤ ph' ∧ ph' < (cfg.NUM_PHASES : Int) ∧
          ∀ (d : Nat) (el : Int), osc_get cfg (d + 1) wk.oscs (some i) el = .ok ph') ∧
    (∀ (fuel : Nat) (w : World) (i : Nat) (a b c len ph : Int),
      w.oscs[i]? = some (.RandPhaser a b c len ph) → 0 ≤ ph → ph < (cfg.NUM_PHASES : Int) →
      ∀ (k : Nat) (wk : World), osc_run cfg fuel k w = .ok wk →
        ∃ c' len' ph', wk.oscs[i]? = some (.RandPhaser a b c' len' ph') ∧
          0 ≤ ph' ∧ ph' < (cfg.NUM_PHASES : Int) ∧
          ∀ (d : Nat) (el : Int), osc_get cfg (d + 1) wk.oscs (some i) el = .ok ph') := by
  refine ⟨?_, ?_, ?_, ?_⟩
  · intro L w0
    have hrange := rand_range_phase cfg.NUM_PHASES hP w0.rng
    exact ⟨_, hrange.1, hrange.2, rfl, rfl⟩
  · intro a b w0
    have hrange := rand_range_phase cfg.NUM_PHASES hP (rand_range a b w0.rng).2
    exact ⟨_, _, hrange.1, hrange.2, rfl, rfl⟩
  · intro fuel w i L c ph hx h0 h1 k wk hr
    obtain ⟨x', hx', c', ph', rfl, hq⟩ := osc_run_invariant cfg fuel
      (fun _ x => ∃ c' ph', x = .Phaser L c' ph' ∧ 0 ≤ ph' ∧ ph' < (cfg.NUM_PHASES : Int))
      (by
        rintro _ r g x x' g' ⟨c', ph', rfl, hph⟩ hstep
        exact ⟨_, _, osc_step_phaser cfg fuel r g g' _ _ _ _ hstep,
          phase_step_range cfg L c' ph' hph⟩)
      w i _ hx ⟨c, ph, rfl, h0, h1⟩ k wk hr
    refine ⟨c', ph', hx', hq.1, hq.2, ?_⟩
    intro d el
    simp [osc_get, hx']
  · intro fuel w i a b c len ph hx h0 h1 k wk hr
    obtain ⟨x', hx', c', len', ph', rfl, hq⟩ := osc_run_invariant cfg fuel
      (fun _ x => ∃ c' len' ph', x = .RandPhaser a b c' len' ph' ∧
        0 ≤ ph' ∧ ph' < (cfg.NUM_PHASES : Int))
      (by
        rintro _ r g x x' g' ⟨c', len', ph', rfl, hph⟩ hstep
        obtain ⟨len2, h2⟩ := osc_step_randphaser cfg fuel r g g' _ _ _ _ _ _ hstep
        exact ⟨_, len2, _, h2, phase_step_range cfg len' c' ph' hph⟩)
      w i _ hx ⟨c, len, ph, rfl, h0, h1⟩ k wk hr
    refine ⟨c', len', ph', hx', hq.1, hq.2, ?_⟩
    intro d el
    simp [osc_get, hx']

/-- C8 at `NUM_PHASES = 4`: a RandPhaser with the non-positive lengths
`(0, -2)` built when `rand()` returns 7 starts in phase 3 and is in phase 0
after nine ticks. -/
theorem phase_range_invariant_witness :
    (new_osc_randphaser ⟨4, 4⟩ 0 (-2) ⟨[], ⟨fun _ => 7, 0⟩⟩).2.oscs
      = [.RandPhaser 0 (-2) 0 7 3] ∧
    osc_run ⟨4, 4⟩ 1 9 ⟨[.RandPhaser 0 (-2) 0 7 3], ⟨fun _ => 7, 2⟩⟩
      = .ok ⟨[.RandPhaser 0 (-2) 2 7 0], ⟨fun _ => 7, 3⟩⟩ ∧
    ∃ c' len' ph', [Osc.RandPhaser 0 (-2) 2 7 0][0]?
        = some (.RandPhaser 0 (-2) c' len' ph') ∧
      0 ≤ ph' ∧ ph' < ((4 : Nat) : Int) ∧
      ∀ (d : Nat) (el : Int),
        osc_get ⟨4, 4⟩ (d + 1) [Osc.RandPhaser 0 (-2) 2 7 0] (some 0) el = .ok ph' :=
  ⟨rfl, rfl,
    (phase_range_invariant ⟨4, 4⟩ (by decide)).2.2.2 1
      ⟨[.RandPhaser 0 (-2) 0 7 3], ⟨fun _ => 7, 2⟩⟩ 0
      0 (-2) 0 7 3 rfl (by decide) (by decide) 9 ⟨[.RandPhaser 0 (-2) 2 7 0], ⟨fun _ => 7, 3⟩⟩ rfl⟩

/-! ## Pointers into the list -/

theorem Handle.below_mono {i j : Nat} (hij : i ≤ j) (h : Handle)
    (hb : Handle.below i h = true) : Handle.below j h = true := by
  cases h with
  | none => rfl
  | some a =>
    simp only [Handle.below, decide_eq_true_eq] at hb ⊢
    omega

theorem backRefsFrom_iff (r : List Osc) : ∀ s : Nat,
    backRefsFrom s r = true ↔
      ∀ j x, r[j]? = some x → ∀ h ∈ x.refs, Handle.below (s + j) h = true := by
  induction r with
  | nil => intro s; simp [backRefsFrom]
  | cons y ys ih =>
    intro s
    simp only [backRefsFrom, Bool.and_eq_true, List.all_eq_true, ih (s + 1)]
    constructor
    · rintro ⟨h1, h2⟩ j x hx h hh
      cases j with
      | zero =>
        simp only [List.getElem?_cons_zero, Option.some.injEq] at hx
        subst hx
        exact h1 h hh
      | succ j =>
        simp only [List.getElem?_cons_succ] at hx
        have := h2 j x hx h hh
        have e : s + 1 + j = s + (j + 1) := by omega
        rwa [e] at this
    · intro hall
      refine ⟨fun h hh => hall 0 y (by simp) h hh, ?_⟩
      intro j x hx h hh
      have := hall (j + 1) x (by simpa using hx) h hh
      have e : s + 1 + j = s + (j + 1) := by omega
      rwa [e]

theorem backRefs_iff (r : List Osc) :
    BackRefs r ↔ ∀ j x, r[j]? = some x → ∀ h ∈ x.refs, Handle.below j h = true := by
  unfold BackRefs
  rw [backRefsFrom_iff r 0]
  simp

theorem osc_step_refs (cfg : Config) (fuel : Nat) (r : List Osc) (g g' : Rand) (x x' : Osc)
    (h : osc_step cfg fuel r g x = .ok (x', g')) : x'.refs = x.refs := by
  cases x with
  | Constant v =>
    simp only [osc_step, Except.ok.injEq, Prod.mk.injEq] at h
    rw [← h.1]
  | Bounce a b s v =>
    simp only [osc_step, Except.ok.injEq, Prod.mk.injEq] at h
    rw [← h.1]; rfl
  | Wrap a b s v =>
    simp only [osc_step, Except.ok.injEq, Prod.mk.injEq] at h
    rw [← h.1]; rfl
  | VeloWrap a b s v =>
    simp only [osc_step] at h
    split at h
    · simp at h
    · split at h
      · simp at h
      · simp only [Except.ok.injEq, Prod.mk.injEq] at h
        rw [← h.1]; rfl
  | Multiplex s v =>
    simp only [osc_step, Except.ok.injEq, Prod.mk.injEq] at h
    rw [← h.1]
  | Phaser a b c =>
    simp only [osc_step, Except.ok.injEq, Prod.mk.injEq] at h
    rw [← h.1]; rfl
  | RandPhaser a b c d e =>
    obtain ⟨len, h2⟩ := osc_step_randphaser cfg fuel r g g' _ _ _ _ _ _ h
    rw [h2]; rfl
  | Linear a b =>
    simp only [osc_step, Except.ok.injEq, Prod.mk.injEq] at h
    rw [← h.1]
  | Buffer s f els =>
    simp only [osc_step] at h
    split at h
    · simp at h
    · split_ifs at h <;>
      · simp only [Except.ok.injEq, Prod.mk.injEq] at h
        rw [← h.1]; rfl

theorem osc_increment_backRefs (cfg : Config) (fuel : Nat) (w w' : World)
    (h : osc_increment cfg fuel w = .ok w') (hb : BackRefs w.oscs) : BackRefs w'.oscs := by
  obtain ⟨hlen, hpt⟩ := osc_increment_spec cfg fuel w w' h
  rw [backRefs_iff] at hb ⊢
  intro j x' hx' p hp
  have hj : j < w.oscs.length := by
    rw [← hlen]
    exact (List.getElem?_eq_some_iff.mp hx').1
  obtain ⟨gj, gj', y, hs, hy⟩ := hpt j (w.oscs[j]) (List.getElem?_eq_getElem hj)
  rw [hx'] at hy
  simp only [Option.some.injEq] at hy
  subst hy
  have := osc_step_refs cfg fuel _ gj gj' _ _ hs
  rw [this] at hp
  exact hb j _ (List.getElem?_eq_getElem hj) p hp

theorem osc_run_backRefs (cfg : Config) (fuel : Nat) (w : World) (hb : BackRefs w.oscs) :
    ∀ t w', osc_run cfg fuel t w = .ok w' → BackRefs w'.oscs := by
  intro t
  induction t with
  | zero =>
    intro w' h
    simp only [osc_run, Except.ok.injEq] at h
    subst h
    exact hb
  | succ t ih =>
    intro w' h
    simp only [osc_run] at h
    cases hr : osc_run cfg fuel t w with
    | error e => rw [hr] at h; simp at h
    | ok w1 =>
      rw [hr] at h
      exact osc_increment_backRefs cfg fuel w1 w' h (ih w1 hr)

/-- The value of `osc_get` at a pointer below `n` only depends on the first
`n` objects, when their pointers all point backwards. -/
theorem osc_get_local (cfg : Config) (n : Nat) (r1 r2 : List Osc)
    (hagree : ∀ i, i < n → r1[i]? = r2[i]?)
    (hback : ∀ i, i < n → ∀ x, r1[i]? = some x → ∀ h ∈ x.refs, Handle.below i h = true) :
    ∀ (fuel : Nat) (h : Handle) (el : Int), Handle.below n h = true →
      osc_get cfg fuel r1 h el = osc_get cfg fuel r2 h el := by
  intro fuel
  induction fuel with
  | zero =>
    intro h el _
    cases h <;> simp [osc_get]
  | succ fuel ih =>
    intro h el hb
    cases h with
    | none => simp [osc_get]
    | some i =>
      have hi : i < n := by simpa [Handle.below] using hb
      have hag := hagree i hi
      have hbk := hback i hi
      simp only [osc_get]
      rw [← hag]
      cases hx : r1[i]? with
      | none => rfl
      | some x =>
        have hrefs := hbk x hx
        have hlt : ∀ p ∈ x.refs, Handle.below n p = true := fun p hp =>
          Handle.below_mono (le_of_lt hi) p (hrefs p hp)
        cases x with
        | Linear base diff =>
          simp only
          rw [ih base el (hlt base (by simp [Osc.refs])), ih diff el (hlt diff (by simp [Osc.refs]))]
        | Multiplex sel val =>
          simp only
          rw [ih sel el (hlt sel (by simp [Osc.refs]))]
          cases osc_get cfg fuel r2 sel el with
          | error e => rfl
          | ok s =>
            simp only
            split_ifs
            · rfl
            · rfl
            · cases hv : val[(Int.tmod s cfg.NUM_PHASES).toNat]? with
              | none => rfl
              | some p =>
                simp only
                exact ih p el (hlt p (by
                  simp only [Osc.refs, List.mem_cons]
                  exact Or.inr (List.mem_iff_getElem?.mpr ⟨_, hv⟩)))
        | _ => rfl

/-- More fuel does not change a value that `osc_get` has produced. -/
theorem osc_get_mono (cfg : Config) (r : List Osc) :
    ∀ (fuel : Nat) (h : Handle) (el v : Int), osc_get cfg fuel r h el = .ok v →
      ∀ d, osc_get cfg (fuel + d) r h el = .ok v := by
  intro fuel
  induction fuel with
  | zero =>
    intro h el v hv d
    cases h with
    | none =>
      simp only [osc_get, Except.ok.injEq] at hv
      subst hv
      cases d <;> simp [osc_get]
    | some i => simp [osc_get] at hv
  | succ fuel ih =>
    intro h el v hv d
    cases h with
    | none =>
      simp only [osc_get, Except.ok.injEq] at hv
      subst hv
      simp [osc_get]
    | some i =>
      have e : fuel + 1 + d = (fuel + d) + 1 := by omega
      rw [e]
      simp only [osc_get] at hv ⊢
      cases hx : r[i]? with
      | none => rw [hx] at hv; simp at hv
      | some x =>
        rw [hx] at hv
        cases x with
        | Linear base diff =>
          simp only at hv ⊢
          cases hb : osc_get cfg fuel r base el with
          | error e => rw [hb] at hv; simp at hv
          | ok b =>
            rw [hb] at hv
            simp only at hv
            cases hd : osc_get cfg fuel r diff el with
            | error e => rw [hd] at hv; simp at hv
            | ok dv =>
              rw [hd] at hv
              rw [ih base el b hb d, ih diff el dv hd d]
              exact hv
        | Multiplex sel val =>
          simp only at hv ⊢
          cases hs : osc_get cfg fuel r sel el with
          | error e => rw [hs] at hv; simp at hv
          | ok s =>
            rw [hs] at hv
            rw [ih sel el s hs d]
            simp only at hv ⊢
            split_ifs at hv ⊢
            cases hp : val[(Int.tmod s cfg.NUM_PHASES).toNat]? with
            | none => rw [hp] at hv; simp at hv
            | some p =>
              rw [hp] at hv
              simp only at hv ⊢
              exact ih p el v hv d
        | _ => exact hv

/-- One call of `osc_increment` seen from position `j`: the object there is
stepped in a list in which every pointer below `j` already evaluates as it
does after the call. -/
theorem osc_increment_at (cfg : Config) (fuel : Nat) (w w' : World)
    (h : osc_increment cfg fuel w = .ok w') (hb : BackRefs w.oscs)
    (j : Nat) (x : Osc) (hx : w.oscs[j]? = some x) :
    ∃ rj gj gj' x', osc_step cfg fuel rj gj x = .ok (x', gj') ∧ w'.oscs[j]? = some x' ∧
      ∀ (p : Handle) (el : Int), Handle.below j p = true →
        osc_get cfg fuel rj p el = osc_get cfg fuel w'.oscs p el := by
  obtain ⟨hlen, hpt⟩ := osc_increment_spec cfg fuel w w' h
  obtain ⟨gj, gj', x', hs, hx'⟩ := hpt j x hx
  have hb' := (backRefs_iff _).mp (osc_increment_backRefs cfg fuel w w' h hb)
  have hj : j < w'.oscs.length := (List.getElem?_eq_some_iff.mp hx').1
  have hag : ∀ i, i < j → (w'.oscs.take j ++ w.oscs.drop j)[i]? = w'.oscs[i]? := by
    intro i hi
    rw [List.getElem?_append_left (by simp; omega), List.getElem?_take_of_lt hi]
  refine ⟨_, gj, gj', x', hs, hx', ?_⟩
  intro p el hp
  exact osc_get_local cfg j _ _ hag
    (fun i hi y hy q hq => hb' i y (by rw [← hag i hi]; exact hy) q hq) fuel p el hp

/-! ## VeloWrap -/

theorem velowrap_up_spec (min diff : Int) :
    ∀ (fuel : Nat) (val val' : Int), velowrap_up min diff fuel val = .ok val' →
      min ≤ val' ∧ diff ∣ (val' - val) ∧ (min ≤ val → val' = val) ∧
      (val < min → val' < min + diff) := by
  intro fuel
  induction fuel with
  | zero => intro val val' h; simp [velowrap_up] at h
  | succ fuel ih =>
    intro val val' h
    simp only [velowrap_up] at h
    split_ifs at h with hlt
    · obtain ⟨h1, h2, h3, h4⟩ := ih _ _ h
      refine ⟨h1, ?_, fun hge => absurd hlt (by omega), fun _ => ?_⟩
      · have := Int.dvd_add h2 (Int.dvd_refl diff)
        have e : val' - (val + diff) + diff = val' - val := by ring
        rwa [e] at this
      · by_cases hc : min ≤ val + diff
        · have := h3 hc; omega
        · exact h4 (by omega)
    · simp only [Except.ok.injEq] at h
      subst h
      exact ⟨by omega, by simp, fun _ => rfl, fun hc => absurd hc hlt⟩

theorem velowrap_down_spec (max diff : Int) :
    ∀ (fuel : Nat) (val val' : Int), velowrap_down max diff fuel val = .ok val' →
      val' ≤ max ∧ diff ∣ (val' - val) ∧ (val ≤ max → val' = val) ∧
      (max < val → max - diff < val') := by
  intro fuel
  induction fuel with
  | zero => intro val val' h; simp [velowrap_down] at h
  | succ fuel ih =>
    intro val val' h
    simp only [velowrap_down] at h
    split_ifs at h with hlt
    · obtain ⟨h1, h2, h3, h4⟩ := ih _ _ h
      refine ⟨h1, ?_, fun hge => absurd hlt (by omega), fun _ => ?_⟩
      · have := Int.dvd_sub h2 (Int.dvd_refl diff)
        have e : val' - (val - diff) - diff = val' - val := by ring
        rwa [e] at this
      · by_cases hc : val - diff ≤ max
        · have := h3 hc; omega
        · exact h4 (by omega)
    · simp only [Except.ok.injEq] at h
      subst h
      exact ⟨by omega, by simp, fun _ => rfl, fun hc => absurd hc hlt⟩

theorem velowrap_up_total (min diff : Int) (hd : 0 < diff) :
    ∀ (fuel : Nat) (val : Int), (min - val).toNat < fuel →
      ∃ val', velowrap_up min diff fuel val = .ok val' := by
  intro fuel
  induction fuel with
  | zero => intro val h; omega
  | succ fuel ih =>
    intro val h
    simp only [velowrap_up]
    split_ifs with hlt
    · exact ih _ (by omega)
    · exact ⟨_, rfl⟩

theorem velowrap_down_total (max diff : Int) (hd : 0 < diff) :
    ∀ (fuel : Nat) (val : Int), (val - max).toNat < fuel →
      ∃ val', velowrap_down max diff fuel val = .ok val' := by
  intro fuel
  induction fuel with
  | zero => intro val h; omega
  | succ fuel ih =>
    intro val h
    simp only [velowrap_down]
    split_ifs with hlt
    · exact ih _ (by omega)
    · exact ⟨_, rfl⟩

theorem velowrap_step_total (fuel : Nat) (min max val v : Int) (hmm : min < max)
    (hf : (min - (val + v)).toNat + (val + v - max).toNat < fuel) :
    ∃ val', velowrap_step fuel min max val v = .ok val' := by
  unfold velowrap_step
  simp only
  obtain ⟨u, hu⟩ := velowrap_up_total min (max - min) (by omega) fuel (val + v) (by omega)
  rw [hu]
  simp only
  obtain ⟨a1, a2, a3, a4⟩ := velowrap_up_spec min (max - min) fuel _ _ hu
  apply velowrap_down_total max (max - min) (by omega) fuel u
  by_cases hc : min ≤ val + v
  · have := a3 hc; omega
  · have := a4 (by omega); omega

theorem fill_els_spec (cfg : Config) (fuel : Nat) (r : List Osc) (val : Handle) :
    ∀ (n : Nat) (els : List Int), fill_els cfg fuel r val n = .ok els →
      els.length = n ∧ ∀ v, osc_get cfg fuel r val 0 = .ok v → els = List.replicate n v := by
  intro n
  induction n with
  | zero =>
    intro els h
    simp only [fill_els, Except.ok.injEq] at h
    subst h
    simp
  | succ n ih =>
    intro els h
    simp only [fill_els] at h
    cases hv : osc_get cfg fuel r val 0 with
    | error e => rw [hv] at h; simp at h
    | ok v =>
      rw [hv] at h
      simp only at h
      cases hf : fill_els cfg fuel r val n with
      | error e => rw [hf] at h; simp at h
      | ok tl =>
        rw [hf] at h
        simp only [Except.ok.injEq] at h
        subst h
        obtain ⟨h1, h2⟩ := ih tl hf
        refine ⟨by simp [h1], ?_⟩
        intro v' hv'
        simp only [Except.ok.injEq] at hv'
        subst hv'
        rw [h2 v hv, List.replicate_succ]

theorem fill_els_sample (cfg : Config) (fuel : Nat) (r : List Osc) (val : Handle) :
    ∀ (n : Nat) (els : List Int), 1 ≤ n → fill_els cfg fuel r val n = .ok els →
      ∃ v, osc_get cfg fuel r val 0 = .ok v := by
  intro n els hn h
  cases n with
  | zero => omega
  | succ n =>
    simp only [fill_els] at h
    cases hv : osc_get cfg fuel r val 0 with
    | error e => rw [hv] at h; simp at h
    | ok v => exact ⟨v, rfl⟩

theorem mod_lt_two (a n : Nat) (h : a < 2 * n) : a % n = if a < n then a else a - n := by
  split_ifs with hlt
  · exact Nat.mod_eq_of_lt hlt
  · rw [Nat.mod_eq_sub_mod (by omega), Nat.mod_eq_of_lt (by omega)]

/-- Reading slot `k` of a Buffer whose head is `f`. -/
theorem osc_get_buffer (cfg : Config) (r : List Osc) (b : Nat) (S : Handle) (f : Nat)
    (els : List Int) (hx : r[b]? = some (.Buffer S (f : Int) els)) (k : Nat) (s : Int)
    (hN : 1 ≤ cfg.NUM_ELS) (hs : els[(f + k) % cfg.NUM_ELS]? = some s) (d : Nat) :
    osc_get cfg (d + 1) r (some b) (k : Int) = .ok s := by
  simp only [osc_get, hx]
  rw [if_neg (by omega)]
  have e : Int.tmod ((f : Int) + (k : Int)) (cfg.NUM_ELS : Int)
      = (((f + k) % cfg.NUM_ELS : Nat) : Int) := by
    rw [Int.tmod_eq_emod (by omega) (by omega)]
    push_cast
    rfl
  simp only [e]
  rw [if_neg (by omega)]
  simp only [Int.toNat_ofNat, hs]

/-- The Buffer case of `osc_step` on a ring of `NUM_ELS` slots whose head `f`
is in range: the head moves back by one, cyclically, and the new head slot
receives `osc_get(val, 0)`. -/
theorem osc_step_buffer (cfg : Config) (fuel : Nat) (r : List Osc) (g g' : Rand)
    (S : Handle) (f : Nat) (els : List Int) (x' : Osc)
    (hf : f < cfg.NUM_ELS) (hl : els.length = cfg.NUM_ELS)
    (h : osc_step cfg fuel r g (.Buffer S (f : Int) els) = .ok (x', g')) :
    ∃ v, osc_get cfg fuel r S 0 = .ok v ∧
      x' = .Buffer S (((if f = 0 then cfg.NUM_ELS - 1 else f - 1 : Nat)) : Int)
        (els.set (if f = 0 then cfg.NUM_ELS - 1 else f - 1) v) := by
  simp only [osc_step] at h
  cases hv : osc_get cfg fuel r S 0 with
  | error e => rw [hv] at h; simp at h
  | ok v =>
    rw [hv] at h
    simp only at h
    refine ⟨v, rfl, ?_⟩
    by_cases h0 : f = 0
    · subst h0
      have e : (if ((0 : Nat) : Int) - 1 < 0 then ((0 : Nat) : Int) - 1 + (cfg.NUM_ELS : Int)
          else ((0 : Nat) : Int) - 1) = ((cfg.NUM_ELS - 1 : Nat) : Int) := by
        rw [if_pos (by omega)]; omega
      rw [e] at h
      rw [if_neg (by omega)] at h
      simp only [Int.toNat_ofNat, Except.ok.injEq, Prod.mk.injEq] at h
      simp only [if_true]
      exact h.1.symm
    · have e : (if (f : Int) - 1 < 0 then (f : Int) - 1 + (cfg.NUM_ELS : Int)
          else (f : Int) - 1) = ((f - 1 : Nat) : Int) := by
        rw [if_neg (by omega)]; omega
      rw [e] at h
      rw [if_neg (by omega)] at h
      simp only [Int.toNat_ofNat, Except.ok.injEq, Prod.mk.injEq] at h
      simp only [if_neg h0]
      exact h.1.symm

/-- What `new_osc_buffer` builds: a flat ring of `NUM_ELS` copies of the
current `osc_get(val, 0)`, head at `NUM_ELS - 1`, appended to the list. -/
theorem new_osc_buffer_spec (cfg : Config) (fuel : Nat) (S B : Handle) (w0 w1 : World)
    (hN : 1 ≤ cfg.NUM_ELS) (hB : new_osc_buffer cfg fuel S w0 = .ok (B, w1)) :
    ∃ v0, osc_get cfg fuel w0.oscs S 0 = .ok v0 ∧ B = some w0.oscs.length ∧
      w1.oscs = w0.oscs ++
        [.Buffer S ((cfg.NUM_ELS - 1 : Nat) : Int) (List.replicate cfg.NUM_ELS v0)] ∧
      w1.rng = w0.rng := by
  unfold new_osc_buffer at hB
  cases hf : fill_els cfg fuel w0.oscs S cfg.NUM_ELS with
  | error e => rw [hf] at hB; simp at hB
  | ok els =>
    rw [hf] at hB
    simp only [create_osc, Except.ok.injEq, Prod.mk.injEq] at hB
    obtain ⟨v0, hv0⟩ := fill_els_sample cfg fuel w0.oscs S _ els hN hf
    have hrep := (fill_els_spec cfg fuel w0.oscs S _ els hf).2 v0 hv0
    have e : (cfg.NUM_ELS : Int) - 1 = ((cfg.NUM_ELS - 1 : Nat) : Int) := by omega
    refine ⟨v0, hv0, hB.1.symm, ?_, ?_⟩
    · rw [← hB.2, ← hrep, ← e]
    · rw [← hB.2]

/-- The ring invariant behind the delay law: after `t` ticks slot
`(head + k) % NUM_ELS` holds the sample of the source taken after tick
`t - k` (tick 0 being the start) for every `k < NUM_ELS`. -/
theorem buffer_ring_invariant (cfg : Config) (fuel : Nat) (W : World) (b : Nat) (S : Handle)
    (v0 : Int) (hback : BackRefs W.oscs)
    (hx : W.oscs[b]? = some (.Buffer S ((cfg.NUM_ELS - 1 : Nat) : Int)
      (List.replicate cfg.NUM_ELS v0)))
    (hv0 : osc_get cfg fuel W.oscs S 0 = .ok v0) (hN : 1 ≤ cfg.NUM_ELS) :
    ∀ (t : Nat) (wt : World), osc_run cfg fuel t W = .ok wt →
      ∃ (f : Nat) (els : List Int), wt.oscs[b]? = some (.Buffer S (f : Int) els) ∧
        f < cfg.NUM_ELS ∧ els.length = cfg.NUM_ELS ∧
        ∀ k, k < cfg.NUM_ELS → ∃ wj s, osc_run cfg fuel (t - k) W = .ok wj ∧
          osc_get cfg fuel wj.oscs S 0 = .ok s ∧ els[(f + k) % cfg.NUM_ELS]? = some s := by
  have hS : Handle.below b S = true :=
    (backRefs_iff _).mp hback b _ hx S (by simp [Osc.refs])
  intro t
  induction t with
  | zero =>
    intro wt h
    simp only [osc_run, Except.ok.injEq] at h
    subst h
    refine ⟨cfg.NUM_ELS - 1, _, hx, by omega, by simp, ?_⟩
    intro k hk
    refine ⟨W, v0, by rw [Nat.zero_sub]; rfl, hv0, ?_⟩
    rw [List.getElem?_replicate, if_pos (Nat.mod_lt _ (by omega))]
  | succ t ih =>
    intro wt' h
    simp only [osc_run] at h
    cases hr : osc_run cfg fuel t W with
    | error e => rw [hr] at h; simp at h
    | ok wt =>
      rw [hr] at h
      simp only at h
      obtain ⟨f, els, hnode, hf, hlen, hslots⟩ := ih wt hr
      have hbt := osc_run_backRefs cfg fuel W hback t wt hr
      obtain ⟨rj, gj, gj', x', hs, hx', hloc⟩ := osc_increment_at cfg fuel wt wt' h hbt b _ hnode
      obtain ⟨v, hv, hnew⟩ := osc_step_buffer cfg fuel rj gj gj' S f els x' hf hlen hs
      rw [hloc S 0 hS] at hv
      have hrun' : osc_run cfg fuel (t + 1) W = .ok wt' := by
        simp only [osc_run, hr]
        exact h
      subst hnew
      refine ⟨_, _, hx', by split_ifs <;> omega, by simp [hlen], ?_⟩
      intro k hk
      cases k with
      | zero =>
        refine ⟨wt', v, hrun', hv, ?_⟩
        have e : ((if f = 0 then cfg.NUM_ELS - 1 else f - 1) + 0) % cfg.NUM_ELS
            = (if f = 0 then cfg.NUM_ELS - 1 else f - 1) := by
          rw [Nat.add_zero]
          exact Nat.mod_eq_of_lt (by split_ifs <;> omega)
        rw [e, List.getElem?_set]
        simp only [if_true]
        rw [if_pos (by rw [hlen]; split_ifs <;> omega)]
      | succ k =>
        obtain ⟨wj, s, hj, hsj, hslot⟩ := hslots k (by omega)
        have et : t + 1 - (k + 1) = t - k := by omega
        refine ⟨wj, s, by rw [et]; exact hj, hsj, ?_⟩
        have e1 : ((if f = 0 then cfg.NUM_ELS - 1 else f - 1) + (k + 1)) % cfg.NUM_ELS
            = (f + k) % cfg.NUM_ELS := by
          rw [mod_lt_two _ _ (by split_ifs <;> omega), mod_lt_two (f + k) _ (by omega)]
          split_ifs <;> omega
        have e2 : (if f = 0 then cfg.NUM_ELS - 1 else f - 1) ≠ (f + k) % cfg.NUM_ELS := by
          rw [mod_lt_two (f + k) _ (by omega)]
          split_ifs <;> omega
        rw [e1, List.getElem?_set, if_neg e2]
        exact hslot

/-- C1: let `B = new_osc_buffer(S)` be built in the state `w0`, and let the
ticks start from a list that begins with the list so built (further objects
may follow) and whose pointers all point backwards.  After `t` calls of
`osc_increment`, for every `k < NUM_ELS`, `osc_get(B, k)` is the value
`osc_get(S, 0)` had right after tick `t - k` when `k <= t`, and the value it
had when `B` was built when `k >= t`. -/
theorem buffer_delay_law (cfg : Config) (fuel : Nat) (w0 w1 : World) (S B : Handle)
    (hB : new_osc_buffer cfg fuel S w0 = .ok (B, w1))
    (extra : List Osc) (g : Rand) (hback : BackRefs (w1.oscs ++ extra))
    (t : Nat) (wt : World) (ht : osc_run cfg fuel t ⟨w1.oscs ++ extra, g⟩ = .ok wt)
    (k : Nat) (hk : k < cfg.NUM_ELS) :
    ∃ wj s, osc_run cfg fuel (t - k) ⟨w1.oscs ++ extra, g⟩ = .ok wj ∧
      osc_get cfg fuel wj.oscs S 0 = .ok s ∧
      (∀ d, osc_get cfg (d + 1) wt.oscs B (k : Int) = .ok s) ∧
      (t ≤ k → osc_get cfg fuel w0.oscs S 0 = .ok s) := by
  have hN : 1 ≤ cfg.NUM_ELS := by omega
  obtain ⟨v0, hv0, hBeq, hoscs, -⟩ := new_osc_buffer_spec cfg fuel S B w0 w1 hN hB
  subst hBeq
  have hx : (w1.oscs ++ extra)[w0.oscs.length]? = some (.Buffer S ((cfg.NUM_ELS - 1 : Nat) : Int)
      (List.replicate cfg.NUM_ELS v0)) := by
    rw [hoscs, List.append_assoc, List.getElem?_append_right (le_refl _)]
    simp
  have hS : Handle.below w0.oscs.length S = true :=
    (backRefs_iff _).mp hback _ _ hx S (by simp [Osc.refs])
  have hloc : osc_get cfg fuel (w1.oscs ++ extra) S 0 = osc_get cfg fuel w0.oscs S 0 := by
    apply osc_get_local cfg w0.oscs.length _ _ _ _ fuel S 0 hS
    · intro i hi
      rw [hoscs, List.append_assoc, List.getElem?_append_left hi]
    · intro i _ x hxi p hp
      exact (backRefs_iff _).mp hback i x hxi p hp
  obtain ⟨f, els, hnode, hf, hlen, hslots⟩ :=
    buffer_ring_invariant cfg fuel ⟨w1.oscs ++ extra, g⟩ w0.oscs.length S v0 hback hx
      (by rw [hloc]; exact hv0) hN t wt ht
  obtain ⟨wj, s, hj, hsj, hslot⟩ := hslots k hk
  refine ⟨wj, s, hj, hsj, ?_, ?_⟩
  · intro d
    exact osc_get_buffer cfg wt.oscs _ S f els hnode k s hN hslot d
  · intro htk
    have e : t - k = 0 := by omega
    rw [e] at hj
    simp only [osc_run, Except.ok.injEq] at hj
    subst hj
    rw [← hloc]
    exact hsj

/-- The scenario of C1 with `NUM_ELS = 4`: the source is a Wrap that reads 5
when the Buffer is built and 6, 7, 8, 9 after ticks 1 to 4; after tick 4
`osc_get(B, 0) = 9` and `osc_get(B, 3) = 6`, the sample of tick 1. -/
theorem buffer_delay_law_witness :
    new_osc_buffer ⟨4, 4⟩ 1 (some 0) (world_of [.Wrap 0 100 1 5])
      = .ok (some 1, world_of [.Wrap 0 100 1 5, .Buffer (some 0) 3 [5, 5, 5, 5]]) ∧
    BackRefs ((world_of [.Wrap 0 100 1 5, .Buffer (some 0) 3 [5, 5, 5, 5]]).oscs ++ []) ∧
    osc_run ⟨4, 4⟩ 1 4 (world_of [.Wrap 0 100 1 5, .Buffer (some 0) 3 [5, 5, 5, 5]])
      = .ok (world_of [.Wrap 0 100 1 9, .Buffer (some 0) 3 [8, 7, 6, 9]]) ∧
    osc_get ⟨4, 4⟩ 1 [.Wrap 0 100 1 9, .Buffer (some 0) 3 [8, 7, 6, 9]] (some 1) 0 = .ok 9 ∧
    osc_get ⟨4, 4⟩ 1 [.Wrap 0 100 1 9, .Buffer (some 0) 3 [8, 7, 6, 9]] (some 1) 3 = .ok 6 ∧
    ∃ wj s, osc_run ⟨4, 4⟩ 1 (4 - 3)
        ⟨(world_of [.Wrap 0 100 1 5, .Buffer (some 0) 3 [5, 5, 5, 5]]).oscs ++ [],
          ⟨fun _ => 0, 0⟩⟩ = .ok wj ∧
      osc_get ⟨4, 4⟩ 1 wj.oscs (some 0) 0 = .ok s ∧
      (∀ d, osc_get ⟨4, 4⟩ (d + 1)
        (world_of [.Wrap 0 100 1 9, .Buffer (some 0) 3 [8, 7, 6, 9]]).oscs (some 1)
        ((3 : Nat) : Int) = .ok s) ∧
      (4 ≤ 3 → osc_get ⟨4, 4⟩ 1 (world_of [.Wrap 0 100 1 5]).oscs (some 0) 0 = .ok s) :=
  ⟨rfl, rfl, rfl, rfl, rfl,
    buffer_delay_law ⟨4, 4⟩ 1 (world_of [.Wrap 0 100 1 5])
      (world_of [.Wrap 0 100 1 5, .Buffer (some 0) 3 [5, 5, 5, 5]]) (some 0) (some 1) rfl
      [] ⟨fun _ => 0, 0⟩ rfl 4 (world_of [.Wrap 0 100 1 9, .Buffer (some 0) 3 [8, 7, 6, 9]]) rfl
      3 (by decide)⟩

/-! ## Multiplex -/

/-- For a selector value that is not negative the Multiplex case of `osc_get`
routes to option `s % NUM_PHASES`, evaluated at the same `el`. -/
theorem osc_get_multiplex_nonneg (cfg : Config) (fuel : Nat) (r : List Osc) (i : Nat)
    (sel : Handle) (val : List Handle) (el s : Int) (p : Handle)
    (hx : r[i]? = some (.Multiplex sel val)) (hs : osc_get cfg fuel r sel el = .ok s)
    (h0 : 0 ≤ s) (hP : 1 ≤ cfg.NUM_PHASES)
    (hp : val[(s % (cfg.NUM_PHASES : Int)).toNat]? = some p) :
    osc_get cfg (fuel + 1) r (some i) el = osc_get cfg fuel r p el := by
  simp only [osc_get, hx, hs]
  rw [if_neg (by omega)]
  have e : Int.tmod s (cfg.NUM_PHASES : Int) = s % (cfg.NUM_PHASES : Int) :=
    Int.tmod_eq_emod h0 (by omega)
  simp only [e]
  have := Int.emod_nonneg s (show (cfg.NUM_PHASES : Int) ≠ 0 by omega)
  rw [if_neg (by omega)]
  simp only [hp]

/-- C9 at a failing input (`NUM_PHASES = 4`): the selector is a Constant -1,
so the claim routes to option `(-1) mod 4 = 3`, a Constant 13; the code
computes the C remainder `-1 % 4 = -1` and indexes `val[-1]`, outside the
array of options, at any recursion depth. -/
theorem multiplex_negative_selector :
    Int.tmod (-1) ((4 : Nat) : Int) = -1 ∧ (-1 : Int) % ((4 : Nat) : Int) = 3 ∧
    ∀ (N d : Nat) (el : Int),
      osc_get ⟨4, N⟩ (d + 2)
        [.Constant (-1), .Constant 10, .Constant 11, .Constant 12, .Constant 13,
          .Multiplex (some 0) [some 1, some 2, some 3, some 4]] (some 5) el
        = .error .bounds ∧
      osc_get ⟨4, N⟩ (d + 2)
        [.Constant (-1), .Constant 10, .Constant 11, .Constant 12, .Constant 13,
          .Multiplex (some 0) [some 1, some 2, some 3, some 4]] (some 4) el
        = .ok 13 := by
  refine ⟨by decide, by decide, ?_⟩
  intro N d el
  constructor
  · have h : Int.tmod (-1) 4 < 0 := by decide
    simp [osc_get, h]
  · simp [osc_get]

/-- C10 at a failing input (`NUM_PHASES = 4`, any `NUM_ELS`, any random
stream): after `new_osc_constant(-1)` and `new_osc_multiplex` with that
constant as selector, `osc_get` of the Multiplex at `el = 0` indexes the
options at `-1 % 4 = -1`, before and after any number of ticks. -/
theorem osc_get_out_of_range :
    ∀ (N : Nat) (seq : Nat → Nat) (fuel t d : Nat),
      (new_osc_multiplex (some 0) none none none none
        (new_osc_constant (-1) (World.init seq)).2).1 = some 1 ∧
      (osc_run ⟨4, N⟩ fuel t (new_osc_multiplex (some 0) none none none none
        (new_osc_constant (-1) (World.init seq)).2).2).map World.oscs
        = .ok [.Constant (-1), .Multiplex (some 0) [none, none, none, none]] ∧
      osc_get ⟨4, N⟩ (d + 2) [.Constant (-1), .Multiplex (some 0) [none, none, none, none]]
        (some 1) 0 = .error .bounds := by
  intro N seq fuel t d
  refine ⟨rfl, ?_, ?_⟩
  · induction t with
    | zero => rfl
    | succ t ih =>
      simp only [osc_run]
      cases hr : osc_run ⟨4, N⟩ fuel t (new_osc_multiplex (some 0) none none none none
          (new_osc_constant (-1) (World.init seq)).2).2 with
      | error e => rw [hr] at ih; simp [Except.map] at ih
      | ok w =>
        rw [hr] at ih
        simp only [Except.map, Except.ok.injEq] at ih
        obtain ⟨r, g⟩ := w
        simp only at ih
        subst ih
        rfl
  · have h : Int.tmod (-1) 4 < 0 := by decide
    simp [osc_get, h]

/-! ## Absent pointers and Linear -/

/-- C11: `osc_get(NULL, el)` is 0 for every `el` (at any recursion budget).
Hence a Linear with a `NULL` slope evaluates to its base and a Linear with a
`NULL` base to `el * osc_get(diff, el)`; a Multiplex with a `NULL` selector
routes to option 0 (`NUM_PHASES >= 1`); `new_osc_buffer(NULL)` builds a ring
with 0 in every slot and each tick stores 0 in the new head slot; and a
VeloWrap with a `NULL` velocity source and `min <= val <= max` is left
unchanged by `osc_increment`. -/
theorem absent_reference_defined (cfg : Config) (hP : 1 ≤ cfg.NUM_PHASES) :
    (∀ (fuel : Nat) (r : List Osc) (el : Int), osc_get cfg fuel r none el = .ok 0) ∧
    (∀ (fuel : Nat) (r : List Osc) (i : Nat) (base : Handle) (el : Int),
      r[i]? = some (.Linear base none) →
      osc_get cfg (fuel + 1) r (some i) el = osc_get cfg fuel r base el) ∧
    (∀ (fuel : Nat) (r : List Osc) (i : Nat) (diff : Handle) (el : Int),
      r[i]? = some (.Linear none diff) →
      osc_get cfg (fuel + 1) r (some i) el
        = (match osc_get cfg fuel r diff el with
           | .error e => .error e
           | .ok d => .ok (el * d))) ∧
    (∀ (fuel : Nat) (r : List Osc) (i : Nat) (o0 : Handle) (rest : List Handle) (el : Int),
      r[i]? = some (.Multiplex none (o0 :: rest)) →
      osc_get cfg (fuel + 1) r (some i) el = osc_get cfg fuel r o0 el) ∧
    (∀ (fuel : Nat) (w : World),
      new_osc_buffer cfg fuel none w = .ok (some w.oscs.length,
        ⟨w.oscs ++ [.Buffer none ((cfg.NUM_ELS : Int) - 1) (List.replicate cfg.NUM_ELS 0)],
          w.rng⟩)) ∧
    (∀ (fuel : Nat) (w w' : World) (i : Nat) (f : Int) (els : List Int),
      w.oscs[i]? = some (.Buffer none f els) → osc_increment cfg fuel w = .ok w' →
      ∃ f' : Nat, w'.oscs[i]? = some (.Buffer none (f' : Int) (els.set f' 0)) ∧
        f' < els.length ∧ (els.set f' 0)[f']? = some 0) ∧
    (∀ (fuel : Nat) (r : List Osc) (g : Rand) (min max val : Int), min ≤ val → val ≤ max →
      osc_step cfg (fuel + 1) r g (.VeloWrap min max none val)
        = .ok (.VeloWrap min max none val, g)) ∧
    (∀ (fuel : Nat) (w w' : World) (i : Nat) (min max val : Int),
      w.oscs[i]? = some (.VeloWrap min max none val) → min ≤ val → val ≤ max →
      osc_increment cfg fuel w = .ok w' →
      w'.oscs[i]? = some (.VeloWrap min max none val)) := by
  refine ⟨?_, ?_, ?_, ?_, ?_, ?_, ?_, ?_⟩
  · intro fuel r el
    cases fuel <;> simp [osc_get]
  · intro fuel r i base el hx
    have h0 : osc_get cfg fuel r none el = .ok 0 := by cases fuel <;> simp [osc_get]
    simp only [osc_get, hx, h0]
    cases osc_get cfg fuel r base el with
    | error e => rfl
    | ok b => simp
  · intro fuel r i diff el hx
    have h0 : osc_get cfg fuel r none el = .ok 0 := by cases fuel <;> simp [osc_get]
    simp only [osc_get, hx, h0]
    cases osc_get cfg fuel r diff el with
    | error e => rfl
    | ok d => simp
  · intro fuel r i o0 rest el hx
    have h0 : osc_get cfg fuel r none el = .ok 0 := by cases fuel <;> simp [osc_get]
    simp only [osc_get, hx, h0]
    rw [if_neg (by omega)]
    simp
  · intro fuel w
    have h0 : osc_get cfg fuel w.oscs none 0 = .ok 0 := by cases fuel <;> simp [osc_get]
    have hfill : ∀ n, fill_els cfg fuel w.oscs none n = .ok (List.replicate n 0) := by
      intro n
      induction n with
      | zero => rfl
      | succ n ih => simp only [fill_els, h0, ih, List.replicate_succ]
    simp only [new_osc_buffer, hfill, create_osc]
  · intro fuel w w' i f els hx hinc
    obtain ⟨-, hpt⟩ := osc_increment_spec cfg fuel w w' hinc
    obtain ⟨gj, gj', x', hs, hx'⟩ := hpt i _ hx
    have h0 : ∀ r, osc_get cfg fuel r none 0 = .ok 0 := by
      intro r; cases fuel <;> simp [osc_get]
    simp only [osc_step, h0] at hs
    split_ifs at hs with h1 h2 h2
    · simp only [Except.ok.injEq, Prod.mk.injEq] at hs
      refine ⟨(f - 1 + (cfg.NUM_ELS : Int)).toNat, ?_, ?_, ?_⟩
      · rw [hx', ← hs.1, Int.toNat_of_nonneg (by omega)]
      · omega
      · rw [List.getElem?_set]; simp; omega
    · simp only [Except.ok.injEq, Prod.mk.injEq] at hs
      refine ⟨(f - 1).toNat, ?_, ?_, ?_⟩
      · rw [hx', ← hs.1, Int.toNat_of_nonneg (by omega)]
      · omega
      · rw [List.getElem?_set]; simp; omega
  · intro fuel r g min max val h1 h2
    have h0 : osc_get cfg (fuel + 1) r none 0 = .ok 0 := by simp [osc_get]
    simp only [osc_step, h0, velowrap_step, velowrap_up, velowrap_down, add_zero]
    rw [if_neg (by omega)]
    simp only
    rw [if_neg (by omega)]
  · intro fuel w w' i min max val hx h1 h2 hinc
    obtain ⟨-, hpt⟩ := osc_increment_spec cfg fuel w w' hinc
    obtain ⟨gj, gj', x', hs, hx'⟩ := hpt i _ hx
    have h0 : ∀ r, osc_get cfg fuel r none 0 = .ok 0 := by
      intro r; cases fuel <;> simp [osc_get]
    simp only [osc_step, h0] at hs
    cases hq : velowrap_step fuel min max val 0 with
    | error e => rw [hq] at hs; simp at hs
    | ok v' =>
      rw [hq] at hs
      simp only [Except.ok.injEq, Prod.mk.injEq] at hs
      unfold velowrap_step at hq
      simp only [add_zero] at hq
      cases hu : velowrap_up min (max - min) fuel val with
      | error e => rw [hu] at hq; simp at hq
      | ok u =>
        rw [hu] at hq
        simp only at hq
        have a := (velowrap_up_spec min (max - min) fuel _ _ hu).2.2.1 h1
        subst a
        have b := (velowrap_down_spec max (max - min) fuel _ _ hq).2.2.1 h2
        subst b
        rw [hx', ← hs.1]

/-- C11 at `NUM_PHASES = 4`, `NUM_ELS = 4`: a Linear with both pointers
`NULL`, a Buffer over `NULL` and a VeloWrap with a `NULL` velocity, before and
after one tick. -/
theorem absent_reference_defined_witness :
    osc_increment ⟨4, 4⟩ 1 (world_of [.Linear none none, .Buffer none 3 [0, 0, 0, 0],
        .VeloWrap 0 10 none 4])
      = .ok (world_of [.Linear none none, .Buffer none 2 [0, 0, 0, 0],
        .VeloWrap 0 10 none 4]) ∧
    osc_get ⟨4, 4⟩ 1 [.Linear none none] (some 0) 7 = .ok 0 ∧
    (∀ (fuel : Nat) (r : List Osc) (el : Int), osc_get ⟨4, 4⟩ fuel r none el = .ok 0) :=
  ⟨rfl, rfl, (absent_reference_defined ⟨4, 4⟩ (by decide)).1⟩

/-- C18: for `min <= max` with `max + 1 - min` below `2 ^ 32`, and `r` the
next value of `rand()`, `rand_range(min, max)` is
`min + (r mod (max - min + 1))`, which lies in `[min, max]`; and
`rand_range(min, min)` is `min` (without a call of `rand()`). -/
theorem rand_range_inclusive (min max : Int) (g : Rand) (h : min ≤ max)
    (h32 : max + 1 - min < 2 ^ 32) :
    (rand_range min max g).1 = min + ((rand g).1 : Int) % (max - min + 1) ∧
    min ≤ (rand_range min max g).1 ∧ (rand_range min max g).1 ≤ max ∧
    rand_range min min g = (min, g) := by
  have hlast : rand_range min min g = (min, g) := by
    unfold rand_range
    dsimp only
    rw [if_pos (by omega)]
  have hval : (rand_range min max g).1 = min + ((rand g).1 : Int) % (max - min + 1) := by
    unfold rand_range
    dsimp only
    have hd : (((max + 1 - min) % 2 ^ 32).toNat : Int) = max - min + 1 := by omega
    split_ifs with hle
    · have e : max - min + 1 = 1 := by omega
      rw [e, Int.emod_one]
      simp
    · dsimp only
      rw [Int.natCast_mod, hd]
  refine ⟨hval, ?_, ?_, hlast⟩
  · rw [hval]
    have := Int.emod_nonneg ((rand g).1 : Int) (show max - min + 1 ≠ 0 by omega)
    omega
  · rw [hval]
    have := Int.emod_lt_of_pos ((rand g).1 : Int) (show 0 < max - min + 1 by omega)
    omega

/-- C18 on `rand_range(3, 7)` with `rand()` returning 12: `3 + 12 mod 5 = 5`. -/
theorem rand_range_inclusive_witness :
    rand_range 3 7 ⟨fun _ => 12, 0⟩ = (5, ⟨fun _ => 12, 1⟩) ∧
    (rand_range 3 7 ⟨fun _ => 12, 0⟩).1
      = 3 + ((rand ⟨fun _ => 12, 0⟩).1 : Int) % (7 - 3 + 1) ∧
    3 ≤ (rand_range 3 7 ⟨fun _ => 12, 0⟩).1 ∧ (rand_range 3 7 ⟨fun _ => 12, 0⟩).1 ≤ 7 ∧
    rand_range 3 3 ⟨fun _ => 12, 0⟩ = (3, ⟨fun _ => 12, 0⟩) :=
  ⟨rfl, rand_range_inclusive 3 7 ⟨fun _ => 12, 0⟩ (by decide) (by decide)⟩

/-! ## The creation functions -/

/-- C14: each creation function that returns turns the list `r` into
`r ++ [n]` for one new object `n` of the variant asked for, returns the
position of `n` (the old length of `r`) as its pointer, and leaves every
object already in `r` as it was. -/
theorem registry_append_only (cfg : Config) (fuel : Nat) (w : World) :
    (∀ val, (new_osc_constant val w).1 = some w.oscs.length ∧
      (new_osc_constant val w).2.oscs = w.oscs ++ [.Constant val]) ∧
    (∀ min max step h w', new_osc_bounce min max step w = .ok (h, w') →
      h = some w.oscs.length ∧ ∃ val, w'.oscs = w.oscs ++ [.Bounce min max step val]) ∧
    (∀ min max step h w', new_osc_wrap min max step w = .ok (h, w') →
      h = some w.oscs.length ∧ ∃ val, w'.oscs = w.oscs ++ [.Wrap min max step val]) ∧
    (∀ min max step, (new_osc_velowrap min max step w).1 = some w.oscs.length ∧
      ∃ val, (new_osc_velowrap min max step w).2.oscs
        = w.oscs ++ [.VeloWrap min max step val]) ∧
    (∀ sel ox0 ox1 ox2 ox3,
      (new_osc_multiplex sel ox0 ox1 ox2 ox3 w).1 = some w.oscs.length ∧
      (new_osc_multiplex sel ox0 ox1 ox2 ox3 w).2.oscs
        = w.oscs ++ [.Multiplex sel [ox0, ox1, ox2, ox3]]) ∧
    (∀ phaselen, (new_osc_phaser cfg phaselen w).1 = some w.oscs.length ∧
      ∃ curphase, (new_osc_phaser cfg phaselen w).2.oscs
        = w.oscs ++ [.Phaser phaselen 0 curphase]) ∧
    (∀ a b, (new_osc_randphaser cfg a b w).1 = some w.oscs.length ∧
      ∃ curphaselen curphase, (new_osc_randphaser cfg a b w).2.oscs
        = w.oscs ++ [.RandPhaser a b 0 curphaselen curphase]) ∧
    (∀ base diff, (new_osc_linear base diff w).1 = some w.oscs.length ∧
      (new_osc_linear base diff w).2.oscs = w.oscs ++ [.Linear base diff]) ∧
    (∀ val h w', new_osc_buffer cfg fuel val w = .ok (h, w') →
      h = some w.oscs.length ∧
      ∃ els, w'.oscs = w.oscs ++ [.Buffer val ((cfg.NUM_ELS : Int) - 1) els]) ∧
    (∀ (op : Op) (w' : World), op.creates = true → op.run cfg fuel w = .ok w' →
      w'.oscs.length = w.oscs.length + 1 ∧
      (∃ n, w'.oscs = w.oscs ++ [n]) ∧
      ∀ (i : Nat) (x : Osc), w.oscs[i]? = some x → w'.oscs[i]? = some x) := by
  have hbounce : ∀ min max step h w', new_osc_bounce min max step w = .ok (h, w') →
      h = some w.oscs.length ∧ ∃ val, w'.oscs = w.oscs ++ [.Bounce min max step val] := by
    intro min max step h w' hc
    unfold new_osc_bounce at hc
    cases hi : initial_val min max step w.rng with
    | error e => rw [hi] at hc; simp at hc
    | ok p =>
      rw [hi] at hc
      simp only [create_osc, Except.ok.injEq, Prod.mk.injEq] at hc
      exact ⟨hc.1.symm, p.1, by rw [← hc.2]⟩
  have hwrap : ∀ min max step h w', new_osc_wrap min max step w = .ok (h, w') →
      h = some w.oscs.length ∧ ∃ val, w'.oscs = w.oscs ++ [.Wrap min max step val] := by
    intro min max step h w' hc
    unfold new_osc_wrap at hc
    cases hi : initial_val min max step w.rng with
    | error e => rw [hi] at hc; simp at hc
    | ok p =>
      rw [hi] at hc
      simp only [create_osc, Except.ok.injEq, Prod.mk.injEq] at hc
      exact ⟨hc.1.symm, p.1, by rw [← hc.2]⟩
  have hbuffer : ∀ val h w', new_osc_buffer cfg fuel val w = .ok (h, w') →
      h = some w.oscs.length ∧
      ∃ els, w'.oscs = w.oscs ++ [.Buffer val ((cfg.NUM_ELS : Int) - 1) els] := by
    intro val h w' hc
    unfold new_osc_buffer at hc
    cases hf : fill_els cfg fuel w.oscs val cfg.NUM_ELS with
    | error e => rw [hf] at hc; simp at hc
    | ok els =>
      rw [hf] at hc
      simp only [create_osc, Except.ok.injEq, Prod.mk.injEq] at hc
      exact ⟨hc.1.symm, els, by rw [← hc.2]⟩
  refine ⟨fun _ => ⟨rfl, rfl⟩, hbounce, hwrap, fun _ _ _ => ⟨rfl, _, rfl⟩,
    fun _ _ _ _ _ => ⟨rfl, rfl⟩, fun _ => ⟨rfl, _, rfl⟩, fun _ _ => ⟨rfl, _, _, rfl⟩,
    fun _ _ => ⟨rfl, rfl⟩, hbuffer, ?_⟩
  intro op w' hcr hrun
  have happ : ∃ n, w'.oscs = w.oscs ++ [n] := by
    cases op with
    | constant val =>
      simp only [Op.run, Except.ok.injEq] at hrun
      exact ⟨_, by rw [← hrun]; rfl⟩
    | bounce min max step =>
      simp only [Op.run] at hrun
      cases hc : new_osc_bounce min max step w with
      | error e => rw [hc] at hrun; simp at hrun
      | ok p =>
        rw [hc] at hrun
        simp only [Except.ok.injEq] at hrun
        obtain ⟨-, v, hv⟩ := hbounce min max step p.1 p.2 hc
        exact ⟨_, by rw [← hrun]; exact hv⟩
    | wrap min max step =>
      simp only [Op.run] at hrun
      cases hc : new_osc_wrap min max step w with
      | error e => rw [hc] at hrun; simp at hrun
      | ok p =>
        rw [hc] at hrun
        simp only [Except.ok.injEq] at hrun
        obtain ⟨-, v, hv⟩ := hwrap min max step p.1 p.2 hc
        exact ⟨_, by rw [← hrun]; exact hv⟩
    | velowrap min max step =>
      simp only [Op.run, Except.ok.injEq] at hrun
      exact ⟨_, by rw [← hrun]; rfl⟩
    | multiplex sel ox0 ox1 ox2 ox3 =>
      simp only [Op.run, Except.ok.injEq] at hrun
      exact ⟨_, by rw [← hrun]; rfl⟩
    | phaser phaselen =>
      simp only [Op.run, Except.ok.injEq] at hrun
      exact ⟨_, by rw [← hrun]; rfl⟩
    | randphaser a b =>
      simp only [Op.run, Except.ok.injEq] at hrun
      exact ⟨_, by rw [← hrun]; rfl⟩
    | linear base diff =>
      simp only [Op.run, Except.ok.injEq] at hrun
      exact ⟨_, by rw [← hrun]; rfl⟩
    | buffer val =>
      simp only [Op.run] at hrun
      cases hc : new_osc_buffer cfg fuel val w with
      | error e => rw [hc] at hrun; simp at hrun
      | ok p =>
        rw [hc] at hrun
        simp only [Except.ok.injEq] at hrun
        obtain ⟨-, v, hv⟩ := hbuffer val p.1 p.2 hc
        exact ⟨_, by rw [← hrun]; exact hv⟩
    | increment => simp [Op.creates] at hcr
  obtain ⟨n, hn⟩ := happ
  refine ⟨by rw [hn]; simp, ⟨n, hn⟩, ?_⟩
  intro i x hx
  have hi : i < w.oscs.length := (List.getElem?_eq_some_iff.mp hx).1
  rw [hn, List.getElem?_append_left hi]
  exact hx

/-- C14 on `new_osc_wrap(0, 10, 2)` called with two objects in the list and
`rand()` returning 3: the Wrap is appended at position 2 and the two earlier
objects are as before. -/
theorem registry_append_only_witness :
    new_osc_wrap 0 10 2 ⟨[.Constant 5, .Phaser 3 0 1], ⟨fun _ => 3, 0⟩⟩
      = .ok (some 2, ⟨[.Constant 5, .Phaser 3 0 1, .Wrap 0 10 2 6], ⟨fun _ => 3, 1⟩⟩) ∧
    (some 2 = some (World.oscs ⟨[.Constant 5, .Phaser 3 0 1], ⟨fun _ => 3, 0⟩⟩).length ∧
      ∃ val, (World.oscs ⟨[.Constant 5, .Phaser 3 0 1, .Wrap 0 10 2 6], ⟨fun _ => 3, 1⟩⟩)
        = (World.oscs ⟨[.Constant 5, .Phaser 3 0 1], ⟨fun _ => 3, 0⟩⟩)
          ++ [.Wrap 0 10 2 val]) :=
  ⟨rfl, (registry_append_only ⟨4, 4⟩ 1 ⟨[.Constant 5, .Phaser 3 0 1], ⟨fun _ => 3, 0⟩⟩).2.2.1
    0 10 2 (some 2) ⟨[.Constant 5, .Phaser 3 0 1, .Wrap 0 10 2 6], ⟨fun _ => 3, 1⟩⟩ rfl⟩

theorem sameFrame_refl (x : Osc) : sameFrame x x := by
  cases x with
  | Constant v => rfl
  | Multiplex s v => rfl
  | Linear a b => rfl
  | Bounce a b s v => exact ⟨_, _, rfl⟩
  | Wrap a b s v => exact ⟨_, rfl⟩
  | VeloWrap a b s v => exact ⟨_, rfl⟩
  | Phaser L c p => exact ⟨_, _, rfl⟩
  | RandPhaser a b c l p => exact ⟨_, _, _, rfl⟩
  | Buffer s f e => exact ⟨_, _, rfl, rfl⟩

theorem sameFrame_trans (x y z : Osc) (h1 : sameFrame x y) (h2 : sameFrame y z) :
    sameFrame x z := by
  cases x with
  | Constant v => simp only [sameFrame] at h1; subst h1; exact h2
  | Multiplex s v => simp only [sameFrame] at h1; subst h1; exact h2
  | Linear a b => simp only [sameFrame] at h1; subst h1; exact h2
  | Bounce a b s v =>
    simp only [sameFrame] at h1
    obtain ⟨s', v', rfl⟩ := h1
    exact h2
  | Wrap a b s v =>
    simp only [sameFrame] at h1
    obtain ⟨v', rfl⟩ := h1
    exact h2
  | VeloWrap a b s v =>
    simp only [sameFrame] at h1
    obtain ⟨v', rfl⟩ := h1
    exact h2
  | Phaser L c p =>
    simp only [sameFrame] at h1
    obtain ⟨c', p', rfl⟩ := h1
    exact h2
  | RandPhaser a b c l p =>
    simp only [sameFrame] at h1
    obtain ⟨c', l', p', rfl⟩ := h1
    exact h2
  | Buffer s f e =>
    simp only [sameFrame] at h1
    obtain ⟨f', e', rfl, hl⟩ := h1
    simp only [sameFrame] at h2 ⊢
    obtain ⟨f2, e2, rfl, hl2⟩ := h2
    exact ⟨f2, e2, rfl, by rw [hl2, hl]⟩

theorem osc_step_frame (cfg : Config) (fuel : Nat) (r : List Osc) (g g' : Rand) (x x' : Osc)
    (h : osc_step cfg fuel r g x = .ok (x', g')) : sameFrame x x' := by
  cases x with
  | Constant v =>
    simp only [osc_step, Except.ok.injEq, Prod.mk.injEq] at h
    rw [← h.1]; exact sameFrame_refl _
  | Multiplex s v =>
    simp only [osc_step, Except.ok.injEq, Prod.mk.injEq] at h
    rw [← h.1]; exact sameFrame_refl _
  | Linear a b =>
    simp only [osc_step, Except.ok.injEq, Prod.mk.injEq] at h
    rw [← h.1]; exact sameFrame_refl _
  | Bounce a b s v =>
    rw [osc_step_bounce cfg fuel r g g' _ _ _ _ _ h]
    exact ⟨_, _, rfl⟩
  | Wrap a b s v =>
    rw [osc_step_wrap cfg fuel r g g' _ _ _ _ _ h]
    exact ⟨_, rfl⟩
  | VeloWrap a b s v =>
    simp only [osc_step] at h
    split at h
    · simp at h
    · split at h
      · simp at h
      · simp only [Except.ok.injEq, Prod.mk.injEq] at h
        rw [← h.1]; exact ⟨_, rfl⟩
  | Phaser L c p =>
    rw [osc_step_phaser cfg fuel r g g' _ _ _ _ h]
    exact ⟨_, _, rfl⟩
  | RandPhaser a b c l p =>
    obtain ⟨len, h2⟩ := osc_step_randphaser cfg fuel r g g' _ _ _ _ _ _ h
    rw [h2]; exact ⟨_, _, _, rfl⟩
  | Buffer s f e =>
    simp only [osc_step] at h
    split at h
    · simp at h
    · split_ifs at h <;>
      · simp only [Except.ok.injEq, Prod.mk.injEq] at h
        rw [← h.1]; exact ⟨_, _, rfl, by simp⟩

theorem osc_run_length (cfg : Config) (fuel : Nat) (w : World) :
    ∀ t w', osc_run cfg fuel t w = .ok w' → w'.oscs.length = w.oscs.length := by
  intro t
  induction t with
  | zero =>
    intro w' h
    simp only [osc_run, Except.ok.injEq] at h
    rw [← h]
  | succ t ih =>
    intro w' h
    simp only [osc_run] at h
    cases hr : osc_run cfg fuel t w with
    | error e => rw [hr] at h; simp at h
    | ok w1 =>
      rw [hr] at h
      rw [(osc_increment_spec cfg fuel w1 w' h).1, ih w1 hr]

/-- C16: after any number of calls of `osc_increment` the list has the same
length and, position by position, the same objects up to their mutable
state: the tag, `min`/`max`, the Wrap step, `phaselen`,
`minphaselen`/`maxphaselen`, every pointer field and the ring size are
unchanged, and every Constant, Multiplex and Linear is unchanged altogether;
so `osc_get` of a Constant returns the same value before and after. -/
theorem stepper_frame (cfg : Config) (fuel : Nat) (w : World) (t : Nat) (w' : World)
    (hr : osc_run cfg fuel t w = .ok w') :
    w'.oscs.length = w.oscs.length ∧
    ∀ (i : Nat) (x : Osc), w.oscs[i]? = some x →
      ∃ x', w'.oscs[i]? = some x' ∧ sameFrame x x' ∧ x'.refs = x.refs ∧
        (∀ v, x = .Constant v → x' = .Constant v ∧
          ∀ (d : Nat) (el : Int), osc_get cfg (d + 1) w.oscs (some i) el = .ok v ∧
            osc_get cfg (d + 1) w'.oscs (some i) el = .ok v) ∧
        (∀ sel val, x = .Multiplex sel val → x' = .Multiplex sel val) ∧
        (∀ base diff, x = .Linear base diff → x' = .Linear base diff) := by
  refine ⟨osc_run_length cfg fuel w t w' hr, ?_⟩
  intro i x hx
  obtain ⟨x', hx', hq, hrefs⟩ := osc_run_invariant cfg fuel
    (fun _ y => sameFrame x y ∧ y.refs = x.refs)
    (by
      rintro _ r g y y' g' ⟨h1, h2⟩ hstep
      exact ⟨sameFrame_trans x y y' h1 (osc_step_frame cfg fuel r g g' y y' hstep),
        by rw [osc_step_refs cfg fuel r g g' y y' hstep, h2]⟩)
    w i x hx ⟨sameFrame_refl x, rfl⟩ t w' hr
  refine ⟨x', hx', hq, hrefs, ?_, ?_, ?_⟩
  · rintro v rfl
    simp only [sameFrame] at hq
    subst hq
    refine ⟨rfl, fun d el => ⟨?_, ?_⟩⟩
    · simp [osc_get, hx]
    · simp [osc_get, hx']
  · rintro sel val rfl
    simpa [sameFrame] using hq
  · rintro base diff rfl
    simpa [sameFrame] using hq

/-- C16 on a list with one object of each stateful kind next to a Constant, a
Multiplex and a Linear: after three ticks the tags, bounds, lengths and
pointers are as before. -/
theorem stepper_frame_witness :
    osc_run ⟨4, 4⟩ 3 3 (world_of [.Constant 7, .Bounce 0 10 4 9, .Phaser 2 0 3,
        .Multiplex (some 2) [some 0, none, none, none], .Linear (some 0) (some 1),
        .Buffer (some 1) 3 [9, 9, 9, 9]])
      = .ok (world_of [.Constant 7, .Bounce 0 10 4 1, .Phaser 2 1 0,
        .Multiplex (some 2) [some 0, none, none, none], .Linear (some 0) (some 1),
        .Buffer (some 1) 0 [1, 3, 7, 9]]) ∧
    (world_of [.Constant 7, .Bounce 0 10 4 1, .Phaser 2 1 0,
        .Multiplex (some 2) [some 0, none, none, none], .Linear (some 0) (some 1),
        .Buffer (some 1) 0 [1, 3, 7, 9]]).oscs.length
      = (world_of [.Constant 7, .Bounce 0 10 4 9, .Phaser 2 0 3,
        .Multiplex (some 2) [some 0, none, none, none], .Linear (some 0) (some 1),
        .Buffer (some 1) 3 [9, 9, 9, 9]]).oscs.length :=
  ⟨rfl, (stepper_frame ⟨4, 4⟩ 3 (world_of [.Constant 7, .Bounce 0 10 4 9, .Phaser 2 0 3,
        .Multiplex (some 2) [some 0, none, none, none], .Linear (some 0) (some 1),
        .Buffer (some 1) 3 [9, 9, 9, 9]]) 3 _ rfl).1⟩

/-! ## RandPhaser -/

theorem rand_range_between (a b : Int) (hab : a ≤ b) (g : Rand) :
    a ≤ (rand_range a b g).1 ∧ (rand_range a b g).1 ≤ b := by
  unfold rand_range
  dsimp only
  split_ifs with h
  · dsimp only; omega
  · dsimp only
    have hpos : 0 < ((b + 1 - a) % 2 ^ 32).toNat := by omega
    have hlt := Nat.mod_lt (rand g).1 hpos
    have hle : (((b + 1 - a) % 2 ^ 32).toNat : Int) ≤ b + 1 - a := by omega
    omega

/-- The RandPhaser case of `osc_step`, read off `phase_step`: on the tick
where `count + 1` reaches `curphaselen` the counter returns to 0, the phase
moves on cyclically and a new length is drawn; otherwise only the counter
moves. -/
theorem osc_step_randphaser_rule (cfg : Config) (fuel : Nat) (r : List Osc) (g g' : Rand)
    (a b c len ph : Int) (x' : Osc) (hc : c < len)
    (hph : 0 ≤ ph ∧ ph < (cfg.NUM_PHASES : Int))
    (h : osc_step cfg fuel r g (.RandPhaser a b c len ph) = .ok (x', g')) :
    (c + 1 = len → x' = .RandPhaser a b 0 (rand_range a b g).1
      ((ph + 1) % (cfg.NUM_PHASES : Int))) ∧
    (c + 1 ≠ len → x' = .RandPhaser a b (c + 1) len ph) := by
  have hmod : (if ph + 1 ≥ (cfg.NUM_PHASES : Int) then 0 else ph + 1)
      = (ph + 1) % (cfg.NUM_PHASES : Int) := by
    split_ifs with hge
    · have e : ph + 1 = (cfg.NUM_PHASES : Int) := by omega
      rw [e, Int.emod_self]
    · rw [Int.emod_eq_of_lt (by omega) (by omega)]
  constructor
  · intro he
    have e : phase_step cfg len c ph = (true, 0, (ph + 1) % (cfg.NUM_PHASES : Int)) := by
      unfold phase_step
      dsimp only
      rw [if_pos (show c + 1 ≥ len by omega), hmod]
    simp only [osc_step, e, if_true, Except.ok.injEq, Prod.mk.injEq] at h
    rw [← h.1]
  · intro hne
    have e : phase_step cfg len c ph = (false, c + 1, ph) := by
      unfold phase_step
      dsimp only
      rw [if_neg (show ¬ (c + 1 ≥ len) by omega)]
    simp only [osc_step, e, Bool.false_eq_true, if_false, Except.ok.injEq, Prod.mk.injEq] at h
    rw [← h.1]

/-- C17: with `P = NUM_PHASES >= 1` and `1 <= minphaselen <= maxphaselen`,
`new_osc_randphaser` builds a RandPhaser with counter 0, a length in
`[minphaselen, maxphaselen]` and a phase in `[0, P)`; every tick keeps
`minphaselen <= curphaselen <= maxphaselen`, `0 <= count < curphaselen` and
the phase in `[0, P)`; a tick with `count + 1 = curphaselen` sets the counter
to 0, advances the phase by 1 mod `P` and redraws the length, any other tick
only adds 1 to the counter; so a phase entered with length `len` is held for
exactly `len` ticks, a number in `[minphaselen, maxphaselen]`. -/
theorem randphaser_dwell (cfg : Config) (hP : 1 ≤ cfg.NUM_PHASES) (fuel : Nat) (a b : Int)
    (ha : 1 ≤ a) (hab : a ≤ b) :
    (∀ w0 : World, ∃ len p0 : Int,
      (new_osc_randphaser cfg a b w0).1 = some w0.oscs.length ∧
      (new_osc_randphaser cfg a b w0).2.oscs = w0.oscs ++ [.RandPhaser a b 0 len p0] ∧
      a ≤ len ∧ len ≤ b ∧ 0 ≤ p0 ∧ p0 < (cfg.NUM_PHASES : Int)) ∧
    (∀ (w : World) (i : Nat) (c len ph : Int),
      w.oscs[i]? = some (.RandPhaser a b c len ph) → a ≤ len → len ≤ b → 0 ≤ c → c < len →
      0 ≤ ph → ph < (cfg.NUM_PHASES : Int) →
      ∀ (t : Nat) (wt : World), osc_run cfg fuel t w = .ok wt →
        ∃ c' len' ph', wt.oscs[i]? = some (.RandPhaser a b c' len' ph') ∧
          a ≤ len' ∧ len' ≤ b ∧ 0 ≤ c' ∧ c' < len' ∧
          0 ≤ ph' ∧ ph' < (cfg.NUM_PHASES : Int)) ∧
    (∀ (w w' : World) (i : Nat) (c len ph : Int),
      w.oscs[i]? = some (.RandPhaser a b c len ph) → 0 ≤ c → c < len →
      0 ≤ ph → ph < (cfg.NUM_PHASES : Int) → osc_increment cfg fuel w = .ok w' →
      ∃ c' len' ph', w'.oscs[i]? = some (.RandPhaser a b c' len' ph') ∧
        (c + 1 = len → c' = 0 ∧ ph' = (ph + 1) % (cfg.NUM_PHASES : Int) ∧
          (∃ g, len' = (rand_range a b g).1) ∧ a ≤ len' ∧ len' ≤ b) ∧
        (c + 1 ≠ len → c' = c + 1 ∧ len' = len ∧ ph' = ph) ∧
        (2 ≤ cfg.NUM_PHASES → (ph' ≠ ph ↔ c + 1 = len))) ∧
    (∀ (w : World) (i : Nat) (len ph : Int),
      w.oscs[i]? = some (.RandPhaser a b 0 len ph) → a ≤ len → len ≤ b →
      0 ≤ ph → ph < (cfg.NUM_PHASES : Int) →
      ∀ (t : Nat) (wt : World), osc_run cfg fuel t w = .ok wt →
        ((t : Int) < len → wt.oscs[i]? = some (.RandPhaser a b (t : Int) len ph)) ∧
        ((t : Int) = len → ∃ len', wt.oscs[i]?
            = some (.RandPhaser a b 0 len' ((ph + 1) % (cfg.NUM_PHASES : Int))) ∧
          a ≤ len' ∧ len' ≤ b)) := by
  have hP0 : (0 : Int) < (cfg.NUM_PHASES : Int) := by omega
  refine ⟨?_, ?_, ?_, ?_⟩
  · intro w0
    have h1 := rand_range_between a b hab w0.rng
    have h2 := rand_range_phase cfg.NUM_PHASES hP (rand_range a b w0.rng).2
    exact ⟨_, _, rfl, rfl, h1.1, h1.2, h2.1, h2.2⟩
  · intro w i c len ph hx h1 h2 h3 h4 h5 h6 t wt hr
    obtain ⟨x', hx', c', len', ph', rfl, hq⟩ := osc_run_invariant cfg fuel
      (fun _ x => ∃ c' len' ph', x = .RandPhaser a b c' len' ph' ∧
        a ≤ len' ∧ len' ≤ b ∧ 0 ≤ c' ∧ c' < len' ∧ 0 ≤ ph' ∧ ph' < (cfg.NUM_PHASES : Int))
      (by
        rintro _ r g x x' g' ⟨c', len', ph', rfl, k1, k2, k3, k4, k5, k6⟩ hstep
        obtain ⟨r1, r2⟩ := osc_step_randphaser_rule cfg fuel r g g' a b c' len' ph' x' k4
          ⟨k5, k6⟩ hstep
        by_cases he : c' + 1 = len'
        · have hb := rand_range_between a b hab g
          exact ⟨_, _, _, r1 he, hb.1, hb.2, le_refl 0, by omega,
            Int.emod_nonneg _ (ne_of_gt hP0), Int.emod_lt_of_pos _ hP0⟩
        · exact ⟨_, _, _, r2 he, k1, k2, by omega, by omega, k5, k6⟩)
      w i _ hx ⟨c, len, ph, rfl, h1, h2, h3, h4, h5, h6⟩ t wt hr
    exact ⟨c', len', ph', hx', hq⟩
  · intro w w' i c len ph hx h3 h4 h5 h6 hinc
    obtain ⟨-, hpt⟩ := osc_increment_spec cfg fuel w w' hinc
    obtain ⟨gj, gj', x', hs, hx'⟩ := hpt i _ hx
    obtain ⟨r1, r2⟩ := osc_step_randphaser_rule cfg fuel _ gj gj' a b c len ph x' h4
      ⟨h5, h6⟩ hs
    by_cases he : c + 1 = len
    · have hb := rand_range_between a b hab gj
      refine ⟨_, _, _, by rw [hx', r1 he], fun _ => ⟨rfl, rfl, ⟨gj, rfl⟩, hb.1, hb.2⟩,
        fun hne => absurd he hne, ?_⟩
      intro hP2
      constructor
      · intro _; exact he
      · intro _
        by_cases hq : ph + 1 = (cfg.NUM_PHASES : Int)
        · rw [hq, Int.emod_self]; omega
        · rw [Int.emod_eq_of_lt (by omega) (by omega)]; omega
    · refine ⟨_, _, _, by rw [hx', r2 he], fun h => absurd h he, fun _ => ⟨rfl, rfl, rfl⟩, ?_⟩
      intro _
      constructor
      · intro h; exact absurd rfl h
      · intro h; exact absurd h he
  · intro w i len ph hx h1 h2 h5 h6 t wt hr
    obtain ⟨x', hx', hq1, hq2⟩ := osc_run_invariant cfg fuel
      (fun k x => ((k : Int) < len → x = .RandPhaser a b (k : Int) len ph) ∧
        ((k : Int) = len → ∃ len', x = .RandPhaser a b 0 len'
            ((ph + 1) % (cfg.NUM_PHASES : Int)) ∧ a ≤ len' ∧ len' ≤ b))
      (by
        rintro k r g x x' g' ⟨k1, k2⟩ hstep
        by_cases hk : (k : Int) < len
        · have hxk := k1 hk
          subst hxk
          obtain ⟨r1, r2⟩ := osc_step_randphaser_rule cfg fuel r g g' a b (k : Int) len ph x' hk
            ⟨h5, h6⟩ hstep
          constructor
          · intro hlt
            push_cast at hlt ⊢
            exact r2 (by omega)
          · intro heq
            push_cast at heq
            have hb := rand_range_between a b hab g
            exact ⟨_, r1 heq, hb.1, hb.2⟩
        · constructor
          · intro hlt; push_cast at hlt; omega
          · intro heq; push_cast at heq; omega)
      w i _ hx ⟨fun _ => by simp, fun h => by simp at h; omega⟩ t wt hr
    constructor
    · intro hlt
      rw [hx', hq1 hlt]
    · intro heq
      obtain ⟨len', e, hb⟩ := hq2 heq
      exact ⟨len', by rw [hx', e], hb⟩

/-- C17 at `NUM_PHASES = 4` on `new_osc_randphaser(2, 5)` with `rand()`
returning 7: the RandPhaser starts with length `2 + 7 mod 4 = 5` in phase
`7 mod 4 = 3`, holds that phase for 5 ticks and is then in phase 0. -/
theorem randphaser_dwell_witness :
    (new_osc_randphaser ⟨4, 4⟩ 2 5 ⟨[], ⟨fun _ => 7, 0⟩⟩).2.oscs = [.RandPhaser 2 5 0 5 3] ∧
    osc_run ⟨4, 4⟩ 1 4 ⟨[.RandPhaser 2 5 0 5 3], ⟨fun _ => 7, 2⟩⟩
      = .ok ⟨[.RandPhaser 2 5 4 5 3], ⟨fun _ => 7, 2⟩⟩ ∧
    osc_run ⟨4, 4⟩ 1 5 ⟨[.RandPhaser 2 5 0 5 3], ⟨fun _ => 7, 2⟩⟩
      = .ok ⟨[.RandPhaser 2 5 0 5 0], ⟨fun _ => 7, 3⟩⟩ ∧
    (((5 : Nat) : Int) < 5 → (World.oscs ⟨[.RandPhaser 2 5 0 5 0], ⟨fun _ => 7, 3⟩⟩)[0]?
        = some (.RandPhaser 2 5 ((5 : Nat) : Int) 5 3)) ∧
    (((5 : Nat) : Int) = 5 → ∃ len', (World.oscs ⟨[.RandPhaser 2 5 0 5 0], ⟨fun _ => 7, 3⟩⟩)[0]?
        = some (.RandPhaser 2 5 0 len' ((3 + 1) % ((4 : Nat) : Int))) ∧ 2 ≤ len' ∧ len' ≤ 5) :=
  ⟨rfl, rfl, rfl,
    (randphaser_dwell ⟨4, 4⟩ (by decide) 1 2 5 (by decide) (by decide)).2.2.2
      ⟨[.RandPhaser 2 5 0 5 3], ⟨fun _ => 7, 2⟩⟩ 0 5 3 rfl (by decide) (by decide) (by decide)
      (by decide) 5 ⟨[.RandPhaser 2 5 0 5 0], ⟨fun _ => 7, 3⟩⟩ rfl⟩

/-! ## Bounce and Wrap from their creation on -/

/-- The Bounce case of `osc_increment` in terms of its two tests. -/
theorem bounce_step_hits (min max step val : Int) [Decidable (bounce_hits_min min step val)]
    [Decidable (bounce_hits_max min max step val)] :
    bounce_step min max step val
      = (if bounce_hits_max min max step val then
          (if bounce_hits_min min step val then (step, max + (max - (min + (min - (val + step)))))
           else (-step, max + (max - (val + step))))
         else (if bounce_hits_min min step val then (-step, min + (min - (val + step)))
           else (step, val + step))) := by
  unfold bounce_step bounce_hits_max bounce_hits_min
  dsimp only
  split_ifs <;> simp_all

theorem backRefs_append (r : List Osc) (n : Osc) (hb : BackRefs r)
    (hn : ∀ h ∈ n.refs, Handle.below r.length h = true) : BackRefs (r ++ [n]) := by
  rw [backRefs_iff] at hb ⊢
  intro j x hx h hh
  by_cases hj : j < r.length
  · rw [List.getElem?_append_left hj] at hx
    exact hb j x hx h hh
  · rw [List.getElem?_append_right (by omega)] at hx
    have hj2 : j - r.length = 0 := by
      by_contra hne
      have : (j - r.length) = (j - r.length - 1) + 1 := by omega
      rw [this] at hx
      simp at hx
    rw [hj2] at hx
    simp only [List.getElem?_cons_zero, Option.some.injEq] at hx
    subst hx
    have e : j = r.length := by omega
    rw [e]
    exact hn h hh

theorem backRefs_replace (done rest : List Osc) (x x' : Osc)
    (hb : BackRefs (done ++ x :: rest)) (hx : x'.refs = x.refs) :
    BackRefs (done ++ x' :: rest) := by
  rw [backRefs_iff] at hb ⊢
  intro j y hy h hh
  by_cases hj : j < done.length
  · rw [List.getElem?_append_left hj] at hy
    exact hb j y (by rw [List.getElem?_append_left hj]; exact hy) h hh
  · rw [List.getElem?_append_right (by omega)] at hy
    by_cases h0 : j - done.length = 0
    · rw [h0] at hy
      simp only [List.getElem?_cons_zero, Option.some.injEq] at hy
      subst hy
      rw [hx] at hh
      exact hb j x (by rw [List.getElem?_append_right (by omega), h0]; simp) h hh
    · have e : (j - done.length) = (j - done.length - 1) + 1 := by omega
      rw [e] at hy
      simp only [List.getElem?_cons_succ] at hy
      exact hb j y (by
        rw [List.getElem?_append_right (by omega), e]
        simpa using hy) h hh

/-- A creation call appends one object whose pointer fields are the pointer
arguments of the call. -/
theorem Op.run_creates (cfg : Config) (fuel : Nat) (op : Op) (w w' : World)
    (hcr : op.creates = true) (hrun : op.run cfg fuel w = .ok w') :
    ∃ n, w'.oscs = w.oscs ++ [n] ∧ n.refs = op.refs := by
  cases op with
  | constant val =>
    simp only [Op.run, Except.ok.injEq] at hrun
    exact ⟨.Constant val, by rw [← hrun]; rfl, rfl⟩
  | bounce min max step =>
    simp only [Op.run] at hrun
    unfold new_osc_bounce at hrun
    cases hi : initial_val min max step w.rng with
    | error e => rw [hi] at hrun; simp at hrun
    | ok p =>
      rw [hi] at hrun
      simp only [create_osc, Except.ok.injEq] at hrun
      exact ⟨.Bounce min max step p.1, by rw [← hrun], rfl⟩
  | wrap min max step =>
    simp only [Op.run] at hrun
    unfold new_osc_wrap at hrun
    cases hi : initial_val min max step w.rng with
    | error e => rw [hi] at hrun; simp at hrun
    | ok p =>
      rw [hi] at hrun
      simp only [create_osc, Except.ok.injEq] at hrun
      exact ⟨.Wrap min max step p.1, by rw [← hrun], rfl⟩
  | velowrap min max step =>
    simp only [Op.run, Except.ok.injEq] at hrun
    exact ⟨.VeloWrap min max step (rand_range min max w.rng).1, by rw [← hrun]; rfl, rfl⟩
  | multiplex sel ox0 ox1 ox2 ox3 =>
    simp only [Op.run, Except.ok.injEq] at hrun
    exact ⟨.Multiplex sel [ox0, ox1, ox2, ox3], by rw [← hrun]; rfl, rfl⟩
  | phaser phaselen =>
    simp only [Op.run, Except.ok.injEq] at hrun
    exact ⟨.Phaser phaselen 0 (rand_range 0 ((cfg.NUM_PHASES : Int) - 1) w.rng).1,
      by rw [← hrun]; rfl, rfl⟩
  | randphaser a b =>
    simp only [Op.run, Except.ok.injEq] at hrun
    exact ⟨.RandPhaser a b 0 (rand_range a b w.rng).1
      (rand_range 0 ((cfg.NUM_PHASES : Int) - 1) (rand_range a b w.rng).2).1,
      by rw [← hrun]; rfl, rfl⟩
  | linear base diff =>
    simp only [Op.run, Except.ok.injEq] at hrun
    exact ⟨.Linear base diff, by rw [← hrun]; rfl, rfl⟩
  | buffer val =>
    simp only [Op.run] at hrun
    unfold new_osc_buffer at hrun
    cases hf : fill_els cfg fuel w.oscs val cfg.NUM_ELS with
    | error e => rw [hf] at hrun; simp at hrun
    | ok els =>
      rw [hf] at hrun
      simp only [create_osc, Except.ok.injEq] at hrun
      exact ⟨.Buffer val ((cfg.NUM_ELS : Int) - 1) els, by rw [← hrun], rfl⟩
  | increment => simp [Op.creates] at hcr

theorem run_ops_backRefs (cfg : Config) (fuel : Nat) :
    ∀ (ops : List Op) (w w' : World), BackRefs w.oscs → opsValid w.oscs.length ops = true →
      run_ops cfg fuel ops w = .ok w' → BackRefs w'.oscs := by
  intro ops
  induction ops with
  | nil =>
    intro w w' hb _ hr
    simp only [run_ops, Except.ok.injEq] at hr
    rw [← hr]; exact hb
  | cons op ops ih =>
    intro w w' hb hv hr
    simp only [opsValid, Bool.and_eq_true, List.all_eq_true] at hv
    simp only [run_ops] at hr
    cases h1 : op.run cfg fuel w with
    | error e => rw [h1] at hr; simp at hr
    | ok w1 =>
      rw [h1] at hr
      simp only at hr
      by_cases hcr : op.creates = true
      · obtain ⟨n, hn, hrefs⟩ := Op.run_creates cfg fuel op w w1 hcr h1
        have hb1 : BackRefs w1.oscs := by
          rw [hn]
          exact backRefs_append _ _ hb (by rw [hrefs]; exact hv.1)
        have hv2 := hv.2
        rw [if_pos hcr] at hv2
        have hl : w1.oscs.length = w.oscs.length + 1 := by rw [hn]; simp
        exact ih w1 w' hb1 (by rw [hl]; exact hv2) hr
      · have hinc : op = .increment := by
          cases op <;> simp [Op.creates] at hcr ⊢
        subst hinc
        simp only [Op.run] at h1
        have hb1 := osc_increment_backRefs cfg fuel w w1 h1 hb
        have hv2 := hv.2
        rw [if_neg hcr] at hv2
        have hl := (osc_increment_spec cfg fuel w w1 h1).1
        exact ih w1 w' hb1 (by rw [hl]; exact hv2) hr

theorem osc_get_none (cfg : Config) (fuel : Nat) (r : List Osc) (el : Int) :
    osc_get cfg fuel r none el = .ok 0 := by
  cases fuel <;> simp [osc_get]

/-- With backward pointers, a budget above the position of the object is
never exhausted by `osc_get`. -/
theorem osc_get_depth (cfg : Config) (r : List Osc) (hb : BackRefs r) :
    ∀ (fuel : Nat) (h : Handle) (el : Int), Handle.below fuel h = true →
      osc_get cfg fuel r h el ≠ .error .fuel := by
  have hb' := (backRefs_iff r).mp hb
  intro fuel
  induction fuel with
  | zero =>
    intro h el hbel
    cases h with
    | none => simp [osc_get]
    | some i => simp [Handle.below] at hbel
  | succ fuel ih =>
    intro h el hbel
    cases h with
    | none => simp [osc_get]
    | some i =>
      have hi : i ≤ fuel := by
        simp only [Handle.below, decide_eq_true_eq] at hbel
        omega
      simp only [osc_get]
      cases hx : r[i]? with
      | none => simp
      | some x =>
        have hrefs : ∀ p ∈ x.refs, Handle.below fuel p = true := fun p hp =>
          Handle.below_mono hi p (hb' i x hx p hp)
        cases x with
        | Linear base diff =>
          simp only
          have h1 := ih base el (hrefs base (by simp [Osc.refs]))
          have h2 := ih diff el (hrefs diff (by simp [Osc.refs]))
          cases hbv : osc_get cfg fuel r base el with
          | error e =>
            simp only
            intro hc
            apply h1
            rw [hbv, hc]
          | ok b =>
            simp only
            cases hdv : osc_get cfg fuel r diff el with
            | error e =>
              simp only
              intro hc
              apply h2
              rw [hdv, hc]
            | ok d => simp
        | Multiplex sel val =>
          simp only
          have h1 := ih sel el (hrefs sel (by simp [Osc.refs]))
          cases hsv : osc_get cfg fuel r sel el with
          | error e =>
            simp only
            intro hc
            apply h1
            rw [hsv, hc]
          | ok s =>
            simp only
            split_ifs
            · simp
            · simp
            · cases hv : val[(Int.tmod s cfg.NUM_PHASES).toNat]? with
              | none => simp
              | some p =>
                simp only
                exact ih p el (hrefs p (by
                  simp only [Osc.refs, List.mem_cons]
                  exact Or.inr (List.mem_iff_getElem?.mpr ⟨_, hv⟩)))
        | Buffer s f els =>
          simp only
          split_ifs
          · simp
          · simp
          · cases els[(Int.tmod (f + el) cfg.NUM_ELS).toNat]? <;> simp
        | _ => simp

/-- A result of `osc_get` other than an exhausted budget is not changed by a
larger budget. -/
theorem osc_get_stable (cfg : Config) (r : List Osc) :
    ∀ (fuel : Nat) (h : Handle) (el : Int), osc_get cfg fuel r h el ≠ .error .fuel →
      ∀ d, osc_get cfg (fuel + d) r h el = osc_get cfg fuel r h el := by
  intro fuel
  induction fuel with
  | zero =>
    intro h el hne d
    cases h with
    | none => rw [osc_get_none, osc_get_none]
    | some i => simp [osc_get] at hne
  | succ fuel ih =>
    intro h el hne d
    cases h with
    | none => rw [osc_get_none, osc_get_none]
    | some i =>
      have e : fuel + 1 + d = (fuel + d) + 1 := by omega
      rw [e]
      simp only [osc_get] at hne ⊢
      cases hx : r[i]? with
      | none => rfl
      | some x =>
        rw [hx] at hne
        cases x with
        | Linear base diff =>
          simp only at hne ⊢
          cases hb : osc_get cfg fuel r base el with
          | error e =>
            rw [hb] at hne
            simp only at hne
            rw [ih base el (by rw [hb]; exact hne) d, hb]
          | ok b =>
            rw [hb] at hne
            simp only at hne
            rw [ih base el (by rw [hb]; simp) d, hb]
            simp only
            cases hd : osc_get cfg fuel r diff el with
            | error e =>
              rw [hd] at hne
              simp only at hne
              rw [ih diff el (by rw [hd]; exact hne) d, hd]
            | ok dv =>
              rw [ih diff el (by rw [hd]; simp) d, hd]
        | Multiplex sel val =>
          simp only at hne ⊢
          cases hs : osc_get cfg fuel r sel el with
          | error e =>
            rw [hs] at hne
            simp only at hne
            rw [ih sel el (by rw [hs]; exact hne) d, hs]
          | ok s =>
            rw [hs] at hne
            rw [ih sel el (by rw [hs]; simp) d, hs]
            simp only at hne ⊢
            split_ifs at hne ⊢
            · rfl
            · rfl
            · cases hp : val[(Int.tmod s cfg.NUM_PHASES).toNat]? with
              | none => rfl
              | some p =>
                rw [hp] at hne
                simp only at hne ⊢
                exact ih p el hne d
        | _ => rfl

theorem velowrap_up_mono (min diff : Int) :
    ∀ (fuel : Nat) (val v : Int), velowrap_up min diff fuel val = .ok v →
      ∀ d, velowrap_up min diff (fuel + d) val = .ok v := by
  intro fuel
  induction fuel with
  | zero => intro val v h; simp [velowrap_up] at h
  | succ fuel ih =>
    intro val v h d
    have e : fuel + 1 + d = (fuel + d) + 1 := by omega
    rw [e]
    simp only [velowrap_up] at h ⊢
    split_ifs at h ⊢
    · exact ih _ _ h d
    · exact h

theorem velowrap_down_mono (max diff : Int) :
    ∀ (fuel : Nat) (val v : Int), velowrap_down max diff fuel val = .ok v →
      ∀ d, velowrap_down max diff (fuel + d) val = .ok v := by
  intro fuel
  induction fuel with
  | zero => intro val v h; simp [velowrap_down] at h
  | succ fuel ih =>
    intro val v h d
    have e : fuel + 1 + d = (fuel + d) + 1 := by omega
    rw [e]
    simp only [velowrap_down] at h ⊢
    split_ifs at h ⊢
    · exact ih _ _ h d
    · exact h

theorem velowrap_step_mono (fuel : Nat) (min max val v val' : Int)
    (h : velowrap_step fuel min max val v = .ok val') :
    ∀ d, velowrap_step (fuel + d) min max val v = .ok val' := by
  intro d
  unfold velowrap_step at h ⊢
  simp only at h ⊢
  cases hu : velowrap_up min (max - min) fuel (val + v) with
  | error e => rw [hu] at h; simp at h
  | ok u =>
    rw [hu] at h
    simp only at h
    rw [velowrap_up_mono min (max - min) fuel _ _ hu d]
    exact velowrap_down_mono max (max - min) fuel _ _ h d

/-- Whether an error is an exhausted budget does not depend on the type of
the result. -/
theorem error_ne_fuel {α β : Type} {e : Err}
    (h : (Except.error e : Except Err α) ≠ .error .fuel) :
    (Except.error e : Except Err β) ≠ .error .fuel := by
  intro hc
  apply h
  simp only [Except.error.injEq] at hc ⊢
  exact hc

/-- With backward pointers the value sampled through a pointer below `j` is
the same for every budget from `j` on, and is not an exhausted budget. -/
theorem osc_get_settled (cfg : Config) (r : List Osc) (hb : BackRefs r) (j : Nat) (p : Handle)
    (el : Int) (hp : Handle.below j p = true) :
    osc_get cfg j r p el ≠ .error .fuel ∧
    ∀ fuel, j ≤ fuel → osc_get cfg fuel r p el = osc_get cfg j r p el := by
  have h1 := osc_get_depth cfg r hb j p el hp
  refine ⟨h1, ?_⟩
  intro fuel hle
  have := osc_get_stable cfg r j p el h1 (fuel - j)
  have e : j + (fuel - j) = fuel := by omega
  rwa [e] at this

/-- One object is stepped with the same outcome, not an exhausted budget, for
every large enough budget, provided a VeloWrap has `max > min`. -/
theorem osc_step_terminates (cfg : Config) (r : List Osc) (g : Rand) (x : Osc) (j : Nat)
    (hb : BackRefs r) (hrefs : ∀ p ∈ x.refs, Handle.below j p = true)
    (hvw : ∀ a b s v, x = .VeloWrap a b s v → a < b) :
    ∃ (F : Nat) (res : Except Err (Osc × Rand)), res ≠ .error .fuel ∧
      ∀ fuel, F ≤ fuel → osc_step cfg fuel r g x = res := by
  cases x with
  | Constant v => exact ⟨0, _, by simp, fun fuel _ => rfl⟩
  | Bounce a b s v => exact ⟨0, .ok _, by simp, fun fuel _ => rfl⟩
  | Wrap a b s v => exact ⟨0, .ok _, by simp, fun fuel _ => rfl⟩
  | Multiplex s v => exact ⟨0, .ok _, by simp, fun fuel _ => rfl⟩
  | Phaser a b c => exact ⟨0, .ok _, by simp, fun fuel _ => rfl⟩
  | Linear a b => exact ⟨0, .ok _, by simp, fun fuel _ => rfl⟩
  | RandPhaser a b c l p =>
    refine ⟨0, osc_step cfg 0 r g (.RandPhaser a b c l p), ?_, fun fuel _ => rfl⟩
    simp only [osc_step]
    split_ifs <;> simp
  | VeloWrap a b s v =>
    have hab := hvw a b s v rfl
    obtain ⟨hne, hst⟩ := osc_get_settled cfg r hb j s 0 (hrefs s (by simp [Osc.refs]))
    cases hv : osc_get cfg j r s 0 with
    | error e =>
      refine ⟨j, .error e, by rw [hv] at hne; exact error_ne_fuel hne, ?_⟩
      intro fuel hle
      simp only [osc_step, hst fuel hle, hv]
    | ok vel =>
      obtain ⟨val', hq⟩ := velowrap_step_total
        ((a - (v + vel)).toNat + (v + vel - b).toNat + 1) a b v vel hab (by omega)
      refine ⟨Nat.max j ((a - (v + vel)).toNat + (v + vel - b).toNat + 1),
        .ok (.VeloWrap a b s val', g), by simp, ?_⟩
      intro fuel hle
      have h1 : j ≤ fuel := le_trans (Nat.le_max_left _ _) hle
      have h2 : (a - (v + vel)).toNat + (v + vel - b).toNat + 1 ≤ fuel :=
        le_trans (Nat.le_max_right _ _) hle
      have hq' := velowrap_step_mono _ a b v vel val' hq
        (fuel - ((a - (v + vel)).toNat + (v + vel - b).toNat + 1))
      have e : (a - (v + vel)).toNat + (v + vel - b).toNat + 1
          + (fuel - ((a - (v + vel)).toNat + (v + vel - b).toNat + 1)) = fuel := by omega
      rw [e] at hq'
      simp only [osc_step, hst fuel h1, hv, hq']
  | Buffer s f els =>
    obtain ⟨hne, hst⟩ := osc_get_settled cfg r hb j s 0 (hrefs s (by simp [Osc.refs]))
    refine ⟨j, osc_step cfg j r g (.Buffer s f els), ?_, ?_⟩
    · simp only [osc_step]
      cases hv : osc_get cfg j r s 0 with
      | error e =>
        simp only
        rw [hv] at hne
        exact error_ne_fuel hne
      | ok vel =>
        simp only
        split_ifs <;> simp
    · intro fuel hle
      simp only [osc_step, hst fuel hle]

/-- The loop of `osc_increment` does not exhaust a large enough budget when
the pointers point backwards and every VeloWrap still to be visited has
`max > min`. -/
theorem osc_loop_terminates (cfg : Config) :
    ∀ (rest done : List Osc) (g : Rand), BackRefs (done ++ rest) →
      (∀ x ∈ rest, ∀ a b s v, x = .VeloWrap a b s v → a < b) →
      ∃ F : Nat, ∀ fuel, F ≤ fuel → osc_loop cfg fuel done rest g ≠ .error .fuel := by
  intro rest
  induction rest with
  | nil =>
    intro done g _ _
    exact ⟨0, fun fuel _ => by simp [osc_loop]⟩
  | cons x rest ih =>
    intro done g hb hvw
    have hrefs : ∀ p ∈ x.refs, Handle.below done.length p = true := by
      intro p hp
      exact (backRefs_iff _).mp hb done.length x
        (by rw [List.getElem?_append_right (le_refl _)]; simp) p hp
    obtain ⟨F1, res, hres, hF1⟩ := osc_step_terminates cfg (done ++ x :: rest) g x done.length
      hb hrefs (fun a b s v hx => hvw x (by simp) a b s v hx)
    cases res with
    | error e =>
      refine ⟨F1, ?_⟩
      intro fuel hle
      simp only [osc_loop, hF1 fuel hle]
      exact error_ne_fuel hres
    | ok p =>
      obtain ⟨x', g'⟩ := p
      have hx' : x'.refs = x.refs := osc_step_refs cfg F1 _ g g' x x' (hF1 F1 (le_refl _))
      have hb2 : BackRefs ((done ++ [x']) ++ rest) := by
        rw [List.append_assoc]
        exact backRefs_replace done rest x x' hb hx'
      obtain ⟨F2, hF2⟩ := ih (done ++ [x']) g' hb2
        (fun y hy a b s v hyx => hvw y (by simp [hy]) a b s v hyx)
      refine ⟨Nat.max F1 F2, ?_⟩
      intro fuel hle
      have h1 : F1 ≤ fuel := le_trans (Nat.le_max_left _ _) hle
      have h2 : F2 ≤ fuel := le_trans (Nat.le_max_right _ _) hle
      simp only [osc_loop, hF1 fuel h1]
      exact hF2 fuel h2

/-- C20: in the list produced from the empty list by any sequence of creation
calls and `osc_increment` calls whose pointer arguments are `NULL` or were
returned by an earlier creation call, every pointer field of the object at
position `i` points at a position below `i`; so `osc_get` of the object at
position `i` never needs a recursion depth above `i + 1` (and `osc_get` of
`NULL` none at all), and `osc_increment` comes to an end, for every large
enough budget, whenever every VeloWrap has `max > min`. -/
theorem backward_references (cfg : Config) (fuel : Nat) (ops : List Op) (seq : Nat → Nat)
    (w : World) (hv : opsValid 0 ops = true)
    (hr : run_ops cfg fuel ops (World.init seq) = .ok w) :
    BackRefs w.oscs ∧
    (∀ (i : Nat) (x : Osc), w.oscs[i]? = some x →
      ∀ p ∈ x.refs, ∀ j, p = some j → j < i ∧ j < w.oscs.length) ∧
    (∀ (i d : Nat) (el : Int), i < w.oscs.length →
      osc_get cfg (i + 1 + d) w.oscs (some i) el ≠ .error .fuel) ∧
    (∀ (d : Nat) (el : Int), osc_get cfg d w.oscs none el = .ok 0) ∧
    ((∀ (i : Nat) (a b : Int) (s : Handle) (v : Int),
        w.oscs[i]? = some (.VeloWrap a b s v) → a < b) →
      ∃ F : Nat, ∀ fuel', F ≤ fuel' → osc_increment cfg fuel' w ≠ .error .fuel) := by
  have hb : BackRefs w.oscs :=
    run_ops_backRefs cfg fuel ops (World.init seq) w rfl hv hr
  refine ⟨hb, ?_, ?_, fun d el => osc_get_none cfg d w.oscs el, ?_⟩
  · intro i x hx p hp j hj
    have := (backRefs_iff _).mp hb i x hx p hp
    subst hj
    simp only [Handle.below, decide_eq_true_eq] at this
    have hi := (List.getElem?_eq_some_iff.mp hx).1
    exact ⟨this, by omega⟩
  · intro i d el _
    exact osc_get_depth cfg w.oscs hb (i + 1 + d) (some i) el
      (by simp only [Handle.below, decide_eq_true_eq]; omega)
  · intro hvw
    obtain ⟨F, hF⟩ := osc_loop_terminates cfg w.oscs [] w.rng (by simpa using hb)
      (by
        intro x hx a b s v hxe
        obtain ⟨i, hi⟩ := List.mem_iff_getElem?.mp hx
        exact hvw i a b s v (by rw [hi, hxe]))
    refine ⟨F, ?_⟩
    intro fuel' hle
    have := hF fuel' hle
    unfold osc_increment
    cases hl : osc_loop cfg fuel' [] w.oscs w.rng with
    | error e =>
      simp only
      rw [hl] at this
      exact error_ne_fuel this
    | ok p => simp

/-- C20 on a construction as the client makes them: a Wrap, a VeloWrap driven
by it, a Linear over both, a Buffer of the Linear, then two ticks. -/
theorem backward_references_witness :
    opsValid 0 [.wrap 0 100 7, .velowrap 0 10 (some 0), .linear (some 1) (some 0),
      .buffer (some 2), .increment, .increment] = true ∧
    run_ops ⟨4, 4⟩ 30 [.wrap 0 100 7, .velowrap 0 10 (some 0), .linear (some 1) (some 0),
        .buffer (some 2), .increment, .increment] (World.init (fun _ => 3))
      = .ok ⟨[.Wrap 0 100 7 35, .VeloWrap 0 10 (some 0) 6, .Linear (some 1) (some 0),
          .Buffer (some 2) 1 [3, 6, 1, 3]], ⟨fun _ => 3, 2⟩⟩ ∧
    BackRefs [.Wrap 0 100 7 35, .VeloWrap 0 10 (some 0) 6, .Linear (some 1) (some 0),
      .Buffer (some 2) 1 [3, 6, 1, 3]] :=
  ⟨rfl, rfl,
    (backward_references ⟨4, 4⟩ 30 [.wrap 0 100 7, .velowrap 0 10 (some 0),
      .linear (some 1) (some 0), .buffer (some 2), .increment, .increment] (fun _ => 3)
      ⟨[.Wrap 0 100 7 35, .VeloWrap 0 10 (some 0) 6, .Linear (some 1) (some 0),
          .Buffer (some 2) 1 [3, 6, 1, 3]], ⟨fun _ => 3, 2⟩⟩ rfl rfl).1⟩

/-! ## Termination of the VeloWrap loops -/

end Stonerview
